import Mathlib

/-!
Verification of the file-set orchestrator of an append-only commit log
(source: src/file_set.rs).  The `FileSet` owns one active (Index, Segment)
pair and an ordered collection of closed pairs keyed by starting offset
(a BTreeMap in the source, modelled here as an association list sorted by
strictly increasing keys).  `Index` and `Segment` are external
collaborators; only their consumed interface is modelled: starting-offset
query, next-offset query, set-readonly, flush, and creation.  Offsets are
u64 in the source and are modelled as `Nat`; the one place where u64
wraparound could matter (the `offset + 1` range bound in `find`) is
modelled with an explicit `% 2 ^ 64`.
-/

set_option maxHeartbeats 1000000

namespace Commitlog

/-- External `Index` collaborator, reduced to its consumed interface:
`starting_offset()`, `next_offset()`, and the read-only flag toggled by
`set_readonly()`. -/
structure Index where
  startingOffset : Nat
  nextOffset : Nat
  readonly : Bool
deriving DecidableEq

/-- External `Segment` collaborator, reduced to its consumed interface:
`starting_offset()` and the durable-flush flag toggled by `flush_sync()`. -/
structure Segment where
  startingOffset : Nat
  flushed : Bool
deriving DecidableEq

/-- Effect of `Index::set_readonly` on the index state (the I/O failure
case is modelled by the caller's environment, see `RollEnv`). -/
def Index.set_readonly (i : Index) : Index :=
  { i with readonly := true }

/-- Modelled from the spec: `Index::new(dir, starting_offset, max_bytes)`
(index.rs is not part of the analysed sources).  A freshly created index
is writable and its next expected offset is its starting offset — it
contains no entries, and the spec defines `next_offset` as one past the
last record assigned. -/
def Index.new (off : Nat) : Index :=
  { startingOffset := off, nextOffset := off, readonly := false }

/-- Effect of `Segment::flush_sync` on the segment state. -/
def Segment.flush_sync (s : Segment) : Segment :=
  { s with flushed := true }

/-- Modelled from the spec: `Segment::new(dir, starting_offset, max_bytes)`
(segment.rs is not part of the analysed sources).  A freshly created
segment at the given starting offset, not yet explicitly flushed. -/
def Segment.new (off : Nat) : Segment :=
  { startingOffset := off, flushed := false }

/-- Keys of an association list, in order. -/
def btKeys {α : Type} (m : List (Nat × α)) : List Nat :=
  m.map Prod.fst

/-- `BTreeMap::insert` on an association list sorted by strictly
increasing keys: place the new binding at its key position, replacing an
existing binding with the same key. -/
def btInsert {α : Type} (k : Nat) (v : α) : List (Nat × α) → List (Nat × α)
  | [] => [(k, v)]
  | q :: t =>
    if k < q.1 then (k, v) :: q :: t
    else if k = q.1 then (k, v) :: t
    else q :: btInsert k v t

/-- `BTreeMap::get`: the value bound to `k`, if any. -/
def btLookup {α : Type} (k : Nat) : List (Nat × α) → Option α
  | [] => none
  | q :: t => if q.1 = k then some q.2 else btLookup k t

/-- `BTreeMap::remove`: drop the binding of `k`, if any. -/
def btRemove {α : Type} (k : Nat) : List (Nat × α) → List (Nat × α)
  | [] => []
  | q :: t => if q.1 = k then t else q :: btRemove k t

/-- `BTreeMap::range(..bound).next_back()` on an association list sorted
by strictly increasing keys: the last entry of the initial run of keys
smaller than `bound`. -/
def btPredLt {α : Type} (bound : Nat) : List (Nat × α) → Option (Nat × α)
  | [] => none
  | q :: t =>
    if q.1 < bound then
      match btPredLt bound t with
      | none => some q
      | some r => some r
    else none

/-- Well-formedness of the association-list encoding of a `BTreeMap`:
keys strictly increasing along the list. -/
def MapSorted {α : Type} (m : List (Nat × α)) : Prop :=
  m.Pairwise (fun a b => a.1 < b.1)

instance {α : Type} (m : List (Nat × α)) : Decidable (MapSorted m) := by
  unfold MapSorted
  exact List.instDecidablePairwise m

/-- The file set: one mutable active (Index, Segment) pair plus the
ordered collection of closed pairs keyed by starting offset
(`FileSet` in file_set.rs; the opaque `LogOptions` field carries no
state observable by any analysed operation and is omitted). -/
structure FileSet where
  active : Index × Segment
  closed : List (Nat × (Index × Segment))
deriving DecidableEq

/-- `FileSet::find` (file_set.rs lines 111–120): the active pair is
authoritative for any offset at or past its starting offset; otherwise a
predecessor search over the closed collection with the u64 range bound
`offset + 1` (computed with u64 wraparound, hence the `% 2 ^ 64`). -/
def FileSet.find (fs : FileSet) (offset : Nat) : Option (Index × Segment) :=
  if fs.active.1.startingOffset ≤ offset then some fs.active
  else Option.map Prod.snd (btPredLt ((offset + 1) % 2 ^ 64) fs.closed)

/-- Outcome environment for one `roll_segment` call: whether each
fallible external call (`set_readonly`, `flush_sync`, `Segment::new`,
`Index::new`) succeeds. -/
structure RollEnv where
  setReadonlyOk : Bool
  flushOk : Bool
  segmentNewOk : Bool
  indexNewOk : Bool
deriving DecidableEq

/-- One observable step of `roll_segment`, in source order. -/
inductive RollStep
  | setReadonly
  | flushSync
  | nextOffsetQuery
  | segmentNew
  | indexNew
  | swapActive
  | insertClosed
deriving DecidableEq

/-- The steps of a fully successful `roll_segment`, in the order the
source performs them (file_set.rs lines 123–137). -/
def fullRollTrace : List RollStep :=
  [RollStep.setReadonly, RollStep.flushSync, RollStep.nextOffsetQuery,
   RollStep.segmentNew, RollStep.indexNew, RollStep.swapActive, RollStep.insertClosed]

/-- Result of a `roll_segment` call: the (possibly partially mutated)
file set, the trace of completed steps, and whether the call returned
`Ok(())`. -/
structure RollResult where
  fileSet : FileSet
  trace : List RollStep
  ok : Bool
deriving DecidableEq

/-- `FileSet::roll_segment` (file_set.rs lines 122–139): mark the active
index read-only, flush the active segment, read the index's next offset,
create a new pair there, swap it into the active slot, and insert the
retired pair into the closed collection keyed by the retired segment's
starting offset.  Each fallible external call short-circuits with `Err`
(modelled by `RollEnv`), leaving the mutations already applied. -/
def FileSet.roll_segment (env : RollEnv) (fs : FileSet) : RollResult :=
  if env.setReadonlyOk = false then ⟨fs, [], false⟩ else
  let fs1 : FileSet := { fs with active := (fs.active.1.set_readonly, fs.active.2) }
  if env.flushOk = false then ⟨fs1, [RollStep.setReadonly], false⟩ else
  let fs2 : FileSet := { fs1 with active := (fs1.active.1, fs1.active.2.flush_sync) }
  let nextOff : Nat := fs2.active.1.nextOffset
  if env.segmentNewOk = false then
    ⟨fs2, [RollStep.setReadonly, RollStep.flushSync, RollStep.nextOffsetQuery], false⟩ else
  if env.indexNewOk = false then
    ⟨fs2, [RollStep.setReadonly, RollStep.flushSync, RollStep.nextOffsetQuery,
           RollStep.segmentNew], false⟩ else
  let p : Index × Segment := (Index.new nextOff, Segment.new nextOff)
  let retired : Index × Segment := fs2.active
  ⟨{ active := p, closed := btInsert retired.2.startingOffset retired fs2.closed },
   fullRollTrace, true⟩

/-- One directory entry as seen by the `load_log` scan: a segment file
that opens to the given `Segment`, a segment file whose open fails, an
index file that opens to the given `Index`, an index file whose open
fails, or a file of unrecognised extension. -/
inductive DirEntry
  | segFile (s : Segment)
  | segOpenErr
  | idxFile (i : Index)
  | idxOpenErr
  | otherFile
deriving DecidableEq

/-- Failure outcomes of `load_log`: a propagated I/O error, the
`panic!("No index found for segment starting at ...")` during pairing,
or the `.unwrap()` panic when removing the chosen active key. -/
inductive LoadErr
  | ioError
  | panicMissingIndex (offset : Nat)
  | panicUnwrap
deriving DecidableEq

/-- Scan loop of `load_log` (file_set.rs lines 27–56): classify each
entry by extension, opening segments and indexes into two offset-keyed
maps; an open failure aborts the load with the I/O error. -/
def scanFiles : List DirEntry → List (Nat × Segment) → List (Nat × Index) →
    Except LoadErr (List (Nat × Segment) × List (Nat × Index))
  | [], segs, idxs => Except.ok (segs, idxs)
  | DirEntry.segFile s :: rest, segs, idxs =>
    scanFiles rest (btInsert s.startingOffset s segs) idxs
  | DirEntry.segOpenErr :: _, _, _ => Except.error LoadErr.ioError
  | DirEntry.idxFile i :: rest, segs, idxs =>
    scanFiles rest segs (btInsert i.startingOffset i idxs)
  | DirEntry.idxOpenErr :: _, _, _ => Except.error LoadErr.ioError
  | DirEntry.otherFile :: rest, segs, idxs => scanFiles rest segs idxs

/-- Pairing step of `load_log` (file_set.rs lines 58–69): walk the
segment map in key order, removing the index with the same starting
offset; a segment with no matching index panics. -/
def pairUp : List (Nat × Index) → List (Nat × Segment) →
    Except LoadErr (List (Nat × (Index × Segment)))
  | _, [] => Except.ok []
  | idxs, (i, s) :: rest =>
    match btLookup i idxs with
    | some v => Except.map (fun t => (i, (v, s)) :: t) (pairUp (btRemove i idxs) rest)
    | none => Except.error (LoadErr.panicMissingIndex i)

/-- Read-only pass of `load_log` (file_set.rs lines 87–90): mark every
remaining closed index read-only (the external `set_readonly` call is
modelled as succeeding; its failure would merely propagate). -/
def setReadonlyAll (m : List (Nat × (Index × Segment))) : List (Nat × (Index × Segment)) :=
  m.map (fun q => (q.1, (q.2.1.set_readonly, q.2.2)))

/-- Segments successfully opened from the directory listing, in order. -/
def dirSegs (dir : List DirEntry) : List Segment :=
  dir.filterMap (fun e => match e with | DirEntry.segFile s => some s | _ => none)

/-- Indexes successfully opened from the directory listing, in order. -/
def dirIdxs (dir : List DirEntry) : List Index :=
  dir.filterMap (fun e => match e with | DirEntry.idxFile i => some i | _ => none)

/-- A directory listing with no file whose open fails. -/
def cleanDir (dir : List DirEntry) : Prop :=
  ∀ e ∈ dir, e ≠ DirEntry.segOpenErr ∧ e ≠ DirEntry.idxOpenErr

instance (dir : List DirEntry) : Decidable (cleanDir dir) := by
  unfold cleanDir
  infer_instance

/-- `FileSet::load_log` (file_set.rs lines 17–97): scan the directory,
pair segments with indexes, reuse the pair with the greatest starting
offset as active (or create a fresh pair at offset 0 when there is
none), and mark every remaining closed index read-only. -/
def FileSet.load_log (dir : List DirEntry) : Except LoadErr FileSet :=
  match scanFiles dir [] [] with
  | Except.error e => Except.error e
  | Except.ok (segs, idxs) =>
    match pairUp idxs segs with
    | Except.error e => Except.error e
    | Except.ok closed =>
      match (btKeys closed).getLast? with
      | some off =>
        match btLookup off closed with
        | some p =>
          Except.ok { active := p, closed := setReadonlyAll (btRemove off closed) }
        | none => Except.error LoadErr.panicUnwrap
      | none =>
        Except.ok { active := (Index.new 0, Segment.new 0), closed := setReadonlyAll closed }

/-- States reachable by a successful `load_log` followed by any number of
successful `roll_segment` calls. -/
inductive Reachable : FileSet → Prop
  | load (dir : List DirEntry) (fs : FileSet) :
      FileSet.load_log dir = Except.ok fs → Reachable fs
  | roll (env : RollEnv) (fs : FileSet) :
      Reachable fs → (FileSet.roll_segment env fs).ok = true →
      Reachable (FileSet.roll_segment env fs).fileSet

/-- States reachable by a successful `load_log` followed by successful
`roll_segment` calls each rolling a non-empty active pair (the retiring
index's next expected offset strictly exceeds its starting offset). -/
inductive ReachableNonEmptyRolls : FileSet → Prop
  | load (dir : List DirEntry) (fs : FileSet) :
      FileSet.load_log dir = Except.ok fs → ReachableNonEmptyRolls fs
  | roll (env : RollEnv) (fs : FileSet) :
      ReachableNonEmptyRolls fs → (FileSet.roll_segment env fs).ok = true →
      fs.active.1.startingOffset < fs.active.1.nextOffset →
      ReachableNonEmptyRolls (FileSet.roll_segment env fs).fileSet

/-- Sample index at offset 0 for concrete witnesses. -/
def idxA : Index := { startingOffset := 0, nextOffset := 7, readonly := false }

/-- Sample segment at offset 0 for concrete witnesses. -/
def segA : Segment := { startingOffset := 0, flushed := false }

/-- Sample index at offset 10 for concrete witnesses. -/
def idxB : Index := { startingOffset := 10, nextOffset := 15, readonly := false }

/-- Sample segment at offset 10 for concrete witnesses. -/
def segB : Segment := { startingOffset := 10, flushed := false }

/-- Sample file set: active pair at offset 10, one closed pair at 0. -/
def fsW : FileSet := { active := (idxB, segB), closed := [(0, (idxA, segA))] }

/-- Sample directory listing with two complete pairs, at offsets 0 and 10. -/
def dirW : List DirEntry :=
  [DirEntry.segFile segA, DirEntry.idxFile idxA, DirEntry.segFile segB, DirEntry.idxFile idxB]

/-- Roll environment in which every external call succeeds. -/
def allOk : RollEnv :=
  { setReadonlyOk := true, flushOk := true, segmentNewOk := true, indexNewOk := true }

/-- The file set produced by loading an empty directory. -/
def fsEmptyLoad : FileSet := { active := (Index.new 0, Segment.new 0), closed := [] }

/-- The file set produced by rolling the empty-directory file set with
every external call succeeding. -/
def fsEmptyRolled : FileSet := (FileSet.roll_segment allOk fsEmptyLoad).fileSet

/-- Sample orphan index at offset 0 (no matching segment). -/
def idxO : Index := { startingOffset := 0, nextOffset := 0, readonly := false }

/-- Sample directory listing holding only an orphan index file. -/
def dirOrphanOnly : List DirEntry := [DirEntry.idxFile idxO]

/-- Sample directory listing with one complete pair at offset 0 plus an
orphan index at offset 10. -/
def dirOrphanPlusPair : List DirEntry :=
  [DirEntry.segFile segA, DirEntry.idxFile idxA, DirEntry.idxFile idxB]

/-- The file set produced by loading the two-pair sample directory. -/
def fsDirWLoaded : FileSet :=
  { active := (idxB, segB),
    closed := [(0, (Index.set_readonly idxA, segA))] }

/-- The file set produced by rolling the loaded sample file set with
every external call succeeding. -/
def fsDirWRolled : FileSet := (FileSet.roll_segment allOk fsDirWLoaded).fileSet

/-- Keys at most `b` in a map sorted by strictly increasing keys all lie
in the initial run that `btPredLt` inspects: if `btPredLt` returns
`none`, every key is at least the bound. -/
theorem btPredLt_none_iff {α : Type} (b : Nat) (m : List (Nat × α)) (hs : MapSorted m) :
    btPredLt b m = none ↔ ∀ q ∈ m, b ≤ q.1 := by
  induction m with
  | nil => simp [btPredLt]
  | cons q t ih =>
    rcases List.pairwise_cons.mp hs with ⟨hq, ht⟩
    by_cases hlt : q.1 < b
    · simp only [btPredLt, if_pos hlt]
      constructor
      · intro h
        cases hrec : btPredLt b t with
        | none => rw [hrec] at h; exact Option.noConfusion h
        | some r => rw [hrec] at h; exact Option.noConfusion h
      · intro h
        exact absurd (h q (List.mem_cons_self q t)) (Nat.not_le.mpr hlt)
    · simp only [btPredLt, if_neg hlt]
      constructor
      · intro _ p hp
        rcases List.mem_cons.mp hp with rfl | hp'
        · exact Nat.le_of_not_lt hlt
        · exact le_trans (Nat.le_of_not_lt hlt) (Nat.le_of_lt (hq p hp'))
      · intro _
        trivial

/-- Characterisation of a successful predecessor search on a sorted map:
the returned entry is in the map, its key is below the bound, and it is
the greatest such key. -/
theorem btPredLt_some_spec {α : Type} (b : Nat) (m : List (Nat × α)) (r : Nat × α)
    (hs : MapSorted m) (h : btPredLt b m = some r) :
    r ∈ m ∧ r.1 < b ∧ ∀ q ∈ m, q.1 < b → q.1 ≤ r.1 := by
  induction m with
  | nil => exact Option.noConfusion h
  | cons q t ih =>
    rcases List.pairwise_cons.mp hs with ⟨hq, ht⟩
    by_cases hlt : q.1 < b
    · simp only [btPredLt, if_pos hlt] at h
      cases hrec : btPredLt b t with
      | none =>
        rw [hrec] at h
        have hr : r = q := (Option.some.injEq _ _).mp h |>.symm
        subst hr
        refine ⟨List.mem_cons_self r t, hlt, ?_⟩
        intro p hp hpb
        rcases List.mem_cons.mp hp with rfl | hp'
        · exact Nat.le_refl _
        · exact absurd ((btPredLt_none_iff b t ht).mp hrec p hp') (Nat.not_le.mpr hpb)
      | some r' =>
        rw [hrec] at h
        have hr : r = r' := ((Option.some.injEq _ _).mp h).symm
        subst hr
        rcases ih ht hrec with ⟨hmem, hrb, hmax⟩
        refine ⟨List.mem_cons_of_mem q hmem, hrb, ?_⟩
        intro p hp hpb
        rcases List.mem_cons.mp hp with rfl | hp'
        · exact Nat.le_of_lt (hq r hmem)
        · exact hmax p hp' hpb
    · simp only [btPredLt, if_neg hlt] at h
      exact Option.noConfusion h

/-- Looking up the key just inserted returns the inserted value: the
prefix that `btInsert` keeps consists of entries with keys strictly
below the inserted key. -/
theorem btLookup_btInsert_self {α : Type} (k : Nat) (v : α) (m : List (Nat × α)) :
    btLookup k (btInsert k v m) = some v := by
  induction m with
  | nil => simp [btInsert, btLookup]
  | cons q t ih =>
    by_cases h1 : k < q.1
    · simp [btInsert, if_pos h1, btLookup]
    · by_cases h2 : k = q.1
      · simp [btInsert, if_neg h1, if_pos h2, btLookup]
      · have h3 : ¬ q.1 = k := fun h => h2 h.symm
        simp [btInsert, if_neg h1, if_neg h2, btLookup, if_neg h3, ih]

/-- Unconditional upper bound on the entries of `btInsert`: every entry
of the result is the inserted binding or one of the original entries. -/
theorem btInsert_mem_sub {α : Type} (k : Nat) (v : α) (m : List (Nat × α))
    (q : Nat × α) (h : q ∈ btInsert k v m) : q = (k, v) ∨ q ∈ m := by
  induction m with
  | nil =>
    simp [btInsert] at h
    exact Or.inl h
  | cons p t ih =>
    by_cases h1 : k < p.1
    · simp only [btInsert, if_pos h1] at h
      rcases List.mem_cons.mp h with rfl | h'
      · exact Or.inl rfl
      · exact Or.inr h'
    · by_cases h2 : k = p.1
      · simp only [btInsert, if_neg h1, if_pos h2] at h
        rcases List.mem_cons.mp h with rfl | h'
        · exact Or.inl rfl
        · exact Or.inr (List.mem_cons_of_mem p h')
      · simp only [btInsert, if_neg h1, if_neg h2] at h
        rcases List.mem_cons.mp h with rfl | h'
        · exact Or.inr (List.mem_cons_self _ _)
        · rcases ih h' with h'' | h''
          · exact Or.inl h''
          · exact Or.inr (List.mem_cons_of_mem p h'')

/-- Key membership after `btInsert`: exactly the inserted key plus the
original keys. -/
theorem btKeys_btInsert {α : Type} (k : Nat) (v : α) (m : List (Nat × α)) (j : Nat) :
    j ∈ btKeys (btInsert k v m) ↔ j = k ∨ j ∈ btKeys m := by
  induction m with
  | nil => simp [btInsert, btKeys]
  | cons p t ih =>
    rcases Nat.lt_trichotomy k p.1 with h1 | h1 | h1
    · have hd : btInsert k v (p :: t) = (k, v) :: p :: t := by
        simp [btInsert, h1]
      rw [hd]
      simp [btKeys]
    · have hd : btInsert k v (p :: t) = (k, v) :: t := by
        simp [btInsert, h1]
      rw [hd]
      simp only [btKeys, List.map_cons, List.mem_cons]
      rw [h1]
      tauto
    · have hne1 : ¬ k < p.1 := Nat.not_lt.mpr (Nat.le_of_lt h1)
      have hne2 : ¬ k = p.1 := Nat.ne_of_gt h1
      have hd : btInsert k v (p :: t) = p :: btInsert k v t := by
        simp [btInsert, hne1, hne2]
      rw [hd]
      simp only [btKeys, List.map_cons, List.mem_cons] at ih ⊢
      rw [ih]
      tauto

/-- `btInsert` preserves the strictly-increasing-keys invariant. -/
theorem btInsert_sorted {α : Type} (k : Nat) (v : α) (m : List (Nat × α))
    (hs : MapSorted m) : MapSorted (btInsert k v m) := by
  induction m with
  | nil => simp [btInsert, MapSorted]
  | cons p t ih =>
    rcases List.pairwise_cons.mp hs with ⟨hp, ht⟩
    by_cases h1 : k < p.1
    · simp only [btInsert, if_pos h1]
      refine List.pairwise_cons.mpr ⟨?_, hs⟩
      intro q hq
      rcases List.mem_cons.mp hq with rfl | hq'
      · exact h1
      · exact lt_trans h1 (hp q hq')
    · by_cases h2 : k = p.1
      · subst h2
        simp only [btInsert, if_neg h1, if_pos rfl]
        exact List.pairwise_cons.mpr ⟨hp, ht⟩
      · simp only [btInsert, if_neg h1, if_neg h2]
        refine List.pairwise_cons.mpr ⟨?_, ih ht⟩
        intro q hq
        have hk : p.1 < k := Nat.lt_of_le_of_ne (Nat.le_of_not_lt h1) (fun h => h2 h.symm)
        rcases btInsert_mem_sub k v t q hq with rfl | hq'
        · exact hk
        · exact hp q hq'

/-- Entry membership after `btInsert` on a sorted map: the inserted
binding plus every original binding at a different key. -/
theorem btInsert_mem {α : Type} (k : Nat) (v : α) (m : List (Nat × α))
    (hs : MapSorted m) (j : Nat) (w : α) :
    (j, w) ∈ btInsert k v m ↔ (j = k ∧ w = v) ∨ ((j, w) ∈ m ∧ j ≠ k) := by
  induction m with
  | nil =>
    constructor
    · intro h
      have h' : (j, w) = (k, v) := List.mem_singleton.mp h
      exact Or.inl ⟨congrArg Prod.fst h', congrArg Prod.snd h'⟩
    · intro h
      rcases h with ⟨rfl, rfl⟩ | ⟨h', _⟩
      · exact List.mem_singleton.mpr rfl
      · exact absurd h' (List.not_mem_nil _)
  | cons p t ih =>
    rcases List.pairwise_cons.mp hs with ⟨hp, ht⟩
    rcases Nat.lt_trichotomy k p.1 with h1 | h1 | h1
    · have hd : btInsert k v (p :: t) = (k, v) :: p :: t := by
        simp [btInsert, h1]
      have hkey : ∀ q ∈ p :: t, k < q.1 := by
        intro q hq
        rcases List.mem_cons.mp hq with rfl | hq'
        · exact h1
        · exact lt_trans h1 (hp q hq')
      rw [hd]
      constructor
      · intro h
        rcases List.mem_cons.mp h with h' | h'
        · exact Or.inl ⟨congrArg Prod.fst h', congrArg Prod.snd h'⟩
        · exact Or.inr ⟨h', Nat.ne_of_gt (hkey _ h')⟩
      · intro h
        rcases h with ⟨rfl, rfl⟩ | ⟨h', _⟩
        · exact List.mem_cons_self _ _
        · exact List.mem_cons_of_mem _ h'
    · have hd : btInsert k v (p :: t) = (k, v) :: t := by
        simp [btInsert, h1]
      have hkey : ∀ q ∈ t, k < q.1 := by
        intro q hq
        rw [h1]
        exact hp q hq
      rw [hd]
      constructor
      · intro h
        rcases List.mem_cons.mp h with h' | h'
        · exact Or.inl ⟨congrArg Prod.fst h', congrArg Prod.snd h'⟩
        · exact Or.inr ⟨List.mem_cons_of_mem p h', Nat.ne_of_gt (hkey _ h')⟩
      · intro h
        rcases h with ⟨rfl, rfl⟩ | ⟨h', hne⟩
        · exact List.mem_cons_self _ _
        · rcases List.mem_cons.mp h' with h'' | h''
          · have hjp : j = p.1 := congrArg Prod.fst h''
            have : j = k := by
              rw [hjp, ← h1]
            exact absurd this hne
          · exact List.mem_cons_of_mem _ h''
    · have hne1 : ¬ k < p.1 := Nat.not_lt.mpr (Nat.le_of_lt h1)
      have hne2 : ¬ k = p.1 := Nat.ne_of_gt h1
      have hd : btInsert k v (p :: t) = p :: btInsert k v t := by
        simp [btInsert, hne1, hne2]
      rw [hd]
      constructor
      · intro h
        rcases List.mem_cons.mp h with h' | h'
        · refine Or.inr ⟨?_, ?_⟩
          · rw [h']
            exact List.mem_cons_self _ _
          · have : j = p.1 := congrArg Prod.fst h'
            rw [this]
            exact Nat.ne_of_lt h1
        · rcases (ih ht).mp h' with ⟨rfl, rfl⟩ | ⟨h'', hne⟩
          · exact Or.inl ⟨rfl, rfl⟩
          · exact Or.inr ⟨List.mem_cons_of_mem p h'', hne⟩
      · intro h
        rcases h with ⟨rfl, rfl⟩ | ⟨h', hne⟩
        · exact List.mem_cons_of_mem p ((ih ht).mpr (Or.inl ⟨rfl, rfl⟩))
        · rcases List.mem_cons.mp h' with h'' | h''
          · rw [h'']
            exact List.mem_cons_self _ _
          · exact List.mem_cons_of_mem p ((ih ht).mpr (Or.inr ⟨h'', hne⟩))

/-- Keys after inserting a fresh key are a permutation of the new key
followed by the old keys. -/
theorem btKeys_btInsert_perm {α : Type} (k : Nat) (v : α) (m : List (Nat × α))
    (h : k ∉ btKeys m) : List.Perm (btKeys (btInsert k v m)) (k :: btKeys m) := by
  induction m with
  | nil => simp [btInsert, btKeys]
  | cons p t ih =>
    simp only [btKeys, List.map_cons, List.mem_cons, not_or] at h
    rcases h with ⟨hk, ht⟩
    by_cases h1 : k < p.1
    · simp [btInsert, if_pos h1, btKeys]
    · by_cases h2 : k = p.1
      · exact absurd h2 hk
      · simp only [btInsert, if_neg h1, if_neg h2, btKeys, List.map_cons]
        refine List.Perm.trans (List.Perm.cons p.1 (ih ht)) ?_
        exact List.Perm.swap k p.1 (btKeys t)

/-- `btLookup` misses exactly the keys absent from the map. -/
theorem btLookup_eq_none_iff {α : Type} (k : Nat) (m : List (Nat × α)) :
    btLookup k m = none ↔ k ∉ btKeys m := by
  induction m with
  | nil => simp [btLookup, btKeys]
  | cons p t ih =>
    by_cases h1 : p.1 = k
    · simp [btLookup, if_pos h1, btKeys, h1]
    · simp only [btLookup, if_neg h1, btKeys, List.map_cons, List.mem_cons]
      rw [ih]
      unfold btKeys
      constructor
      · intro h hmem
        rcases hmem with h' | h'
        · exact h1 h'.symm
        · exact h h'
      · intro h h'
        exact h (Or.inr h')

/-- A successful `btLookup` returns a binding of the map. -/
theorem btLookup_mem {α : Type} (k : Nat) (m : List (Nat × α)) (v : α)
    (h : btLookup k m = some v) : (k, v) ∈ m := by
  induction m with
  | nil => exact Option.noConfusion h
  | cons p t ih =>
    by_cases h1 : p.1 = k
    · simp only [btLookup, if_pos h1] at h
      have : v = p.2 := ((Option.some.injEq _ _).mp h).symm
      subst this
      subst h1
      exact List.mem_cons_self _ _
    · simp only [btLookup, if_neg h1] at h
      exact List.mem_cons_of_mem p (ih h)

/-- On a sorted map, every binding is found by `btLookup`. -/
theorem btLookup_of_mem {α : Type} (k : Nat) (m : List (Nat × α)) (v : α)
    (hs : MapSorted m) (h : (k, v) ∈ m) : btLookup k m = some v := by
  induction m with
  | nil => exact absurd h (List.not_mem_nil _)
  | cons p t ih =>
    rcases List.pairwise_cons.mp hs with ⟨hp, ht⟩
    rcases List.mem_cons.mp h with h' | h'
    · rw [← h']
      simp [btLookup]
    · have hk : p.1 < k := hp _ h'
      simp only [btLookup, if_neg (Nat.ne_of_lt hk)]
      exact ih ht h'

/-- On a sorted map, `btLookup` finds exactly the bindings of the map. -/
theorem btLookup_eq_some_iff {α : Type} (k : Nat) (m : List (Nat × α)) (v : α)
    (hs : MapSorted m) : btLookup k m = some v ↔ (k, v) ∈ m :=
  ⟨btLookup_mem k m v, btLookup_of_mem k m v hs⟩

/-- `btRemove` yields a sublist of the original map. -/
theorem btRemove_sublist {α : Type} (k : Nat) (m : List (Nat × α)) :
    List.Sublist (btRemove k m) m := by
  induction m with
  | nil => simp [btRemove]
  | cons p t ih =>
    by_cases h1 : p.1 = k
    · simp only [btRemove, if_pos h1]
      exact List.sublist_cons_self p t
    · simp only [btRemove, if_neg h1]
      exact List.Sublist.cons₂ p ih

/-- `btRemove` preserves the strictly-increasing-keys invariant. -/
theorem btRemove_sorted {α : Type} (k : Nat) (m : List (Nat × α))
    (hs : MapSorted m) : MapSorted (btRemove k m) :=
  List.Pairwise.sublist (btRemove_sublist k m) hs

/-- Entry membership after `btRemove` on a sorted map: every original
binding at a different key. -/
theorem btRemove_mem {α : Type} (k : Nat) (m : List (Nat × α)) (hs : MapSorted m)
    (j : Nat) (w : α) :
    (j, w) ∈ btRemove k m ↔ (j, w) ∈ m ∧ j ≠ k := by
  induction m with
  | nil => simp [btRemove]
  | cons p t ih =>
    rcases List.pairwise_cons.mp hs with ⟨hp, ht⟩
    by_cases h1 : p.1 = k
    · subst h1
      simp only [btRemove, if_pos rfl, List.mem_cons]
      constructor
      · intro h
        exact ⟨Or.inr h, Nat.ne_of_gt (hp _ h)⟩
      · intro ⟨h, hne⟩
        rcases h with h' | h'
        · exact absurd (congrArg Prod.fst h') hne
        · exact h'
    · simp only [btRemove, if_neg h1, List.mem_cons, ih ht]
      constructor
      · intro h
        rcases h with rfl | ⟨h', hne⟩
        · exact ⟨Or.inl rfl, fun h => h1 h⟩
        · exact ⟨Or.inr h', hne⟩
      · intro ⟨h, hne⟩
        rcases h with h' | h'
        · exact Or.inl h'
        · exact Or.inr ⟨h', hne⟩

/-- Removing one key leaves lookups of other keys unchanged. -/
theorem btLookup_btRemove_ne {α : Type} (k j : Nat) (m : List (Nat × α))
    (hne : j ≠ k) : btLookup j (btRemove k m) = btLookup j m := by
  induction m with
  | nil => simp [btRemove]
  | cons p t ih =>
    by_cases h1 : p.1 = k
    · subst h1
      have hd : btRemove p.1 (p :: t) = t := by
        simp [btRemove]
      rw [hd]
      have hpj : ¬ p.1 = j := fun h => hne h.symm
      simp only [btLookup, if_neg hpj]
    · simp only [btRemove, if_neg h1, btLookup]
      by_cases h2 : p.1 = j
      · simp [if_pos h2]
      · simp only [if_neg h2]
        exact ih

/-- Sortedness of a map is sortedness of its key list. -/
theorem mapSorted_iff_keys {α : Type} (m : List (Nat × α)) :
    MapSorted m ↔ (btKeys m).Pairwise (fun a b => a < b) := by
  unfold MapSorted btKeys
  rw [List.pairwise_map]

/-- The last key of a sorted non-empty map is bound in the map and is
the greatest key. -/
theorem btMax_spec {α : Type} (m : List (Nat × α)) (off : Nat) (hs : MapSorted m)
    (h : (btKeys m).getLast? = some off) :
    ∃ p, btLookup off m = some p ∧ (off, p) ∈ m ∧ ∀ q ∈ m, q.1 ≤ off := by
  induction m with
  | nil => exact Option.noConfusion h
  | cons q t ih =>
    rcases List.pairwise_cons.mp hs with ⟨hq, ht⟩
    cases t with
    | nil =>
      have hoff : off = q.1 := by
        simp [btKeys] at h
        exact h.symm
      subst hoff
      refine ⟨q.2, by simp [btLookup], by simp, ?_⟩
      intro r hr
      rcases List.mem_cons.mp hr with rfl | hr'
      · exact Nat.le_refl _
      · exact absurd hr' (List.not_mem_nil r)
    | cons r t' =>
      have hlast : (btKeys (r :: t')).getLast? = some off := by
        simpa [btKeys, List.getLast?_cons_cons] using h
      rcases ih ht hlast with ⟨p, hl, hm, hmax⟩
      have hqoff : q.1 < off := hq _ hm
      refine ⟨p, ?_, List.mem_cons_of_mem q hm, ?_⟩
      · simp only [btLookup, if_neg (Nat.ne_of_lt hqoff)]
        exact hl
      · intro s hsm
        rcases List.mem_cons.mp hsm with rfl | hs'
        · exact Nat.le_of_lt hqoff
        · exact hmax s hs'

/-- The key of a binding is a key of the map. -/
theorem mem_btKeys_of_mem {α : Type} (k : Nat) (v : α) (m : List (Nat × α))
    (h : (k, v) ∈ m) : k ∈ btKeys m :=
  List.mem_map_of_mem Prod.fst h

/-- A map whose key list has no last key is empty. -/
theorem btKeys_getLast?_none {α : Type} (m : List (Nat × α))
    (h : (btKeys m).getLast? = none) : m = [] := by
  cases m with
  | nil => rfl
  | cons q t =>
    exfalso
    have h' : (q.1 :: List.map Prod.fst t) = [] := by
      exact List.getLast?_eq_none_iff.mp h
    exact List.noConfusion h'

/-- A scan of a directory listing with no failing opens succeeds. -/
theorem scanFiles_clean_ok (dir : List DirEntry) :
    ∀ segs idxs, cleanDir dir →
      ∃ S I, scanFiles dir segs idxs = Except.ok (S, I) := by
  induction dir with
  | nil =>
    intro segs idxs _
    exact ⟨segs, idxs, rfl⟩
  | cons e rest ih =>
    intro segs idxs h
    have hrest : cleanDir rest := fun x hx => h x (List.mem_cons_of_mem e hx)
    cases e with
    | segFile s => exact ih (btInsert s.startingOffset s segs) idxs hrest
    | segOpenErr => exact absurd rfl (h _ (List.mem_cons_self _ _)).1
    | idxFile i => exact ih segs (btInsert i.startingOffset i idxs) hrest
    | idxOpenErr => exact absurd rfl (h _ (List.mem_cons_self _ _)).2
    | otherFile => exact ih segs idxs hrest

/-- A successful scan preserves the sortedness of both accumulators. -/
theorem scanFiles_ok_sorted (dir : List DirEntry) :
    ∀ segs idxs S I, MapSorted segs → MapSorted idxs →
      scanFiles dir segs idxs = Except.ok (S, I) → MapSorted S ∧ MapSorted I := by
  induction dir with
  | nil =>
    intro segs idxs S I hs hi h
    have h' : (segs, idxs) = (S, I) := by
      injection h
    have h1 : segs = S := congrArg Prod.fst h'
    have h2 : idxs = I := congrArg Prod.snd h'
    subst h1
    subst h2
    exact ⟨hs, hi⟩
  | cons e rest ih =>
    intro segs idxs S I hs hi h
    cases e with
    | segFile s => exact ih _ idxs S I (btInsert_sorted _ s segs hs) hi h
    | segOpenErr => exact Except.noConfusion h
    | idxFile i => exact ih segs _ S I hs (btInsert_sorted _ i idxs hi) h
    | idxOpenErr => exact Except.noConfusion h
    | otherFile => exact ih segs idxs S I hs hi h

/-- A successful scan stores every segment and index under its own
starting offset. -/
theorem scanFiles_ok_entries (dir : List DirEntry) :
    ∀ segs idxs S I,
      (∀ q ∈ segs, (q.2 : Segment).startingOffset = q.1) →
      (∀ q ∈ idxs, (q.2 : Index).startingOffset = q.1) →
      scanFiles dir segs idxs = Except.ok (S, I) →
      (∀ q ∈ S, (q.2 : Segment).startingOffset = q.1) ∧
        (∀ q ∈ I, (q.2 : Index).startingOffset = q.1) := by
  induction dir with
  | nil =>
    intro segs idxs S I hs hi h
    have h' : (segs, idxs) = (S, I) := by
      injection h
    have h1 : segs = S := congrArg Prod.fst h'
    have h2 : idxs = I := congrArg Prod.snd h'
    subst h1
    subst h2
    exact ⟨hs, hi⟩
  | cons e rest ih =>
    intro segs idxs S I hs hi h
    cases e with
    | segFile s =>
      refine ih _ idxs S I ?_ hi h
      intro q hq
      rcases btInsert_mem_sub _ s segs q hq with rfl | hq'
      · rfl
      · exact hs q hq'
    | segOpenErr => exact Except.noConfusion h
    | idxFile i =>
      refine ih segs _ S I hs ?_ h
      intro q hq
      rcases btInsert_mem_sub _ i idxs q hq with rfl | hq'
      · rfl
      · exact hi q hq'
    | idxOpenErr => exact Except.noConfusion h
    | otherFile => exact ih segs idxs S I hs hi h

/-- A segment entry contributes itself to the scanned segment list. -/
theorem dirSegs_cons_seg (s : Segment) (rest : List DirEntry) :
    dirSegs (DirEntry.segFile s :: rest) = s :: dirSegs rest := by
  simp [dirSegs]

/-- An index entry contributes nothing to the scanned segment list. -/
theorem dirSegs_cons_idx (i : Index) (rest : List DirEntry) :
    dirSegs (DirEntry.idxFile i :: rest) = dirSegs rest := by
  simp [dirSegs]

/-- An unrecognised entry contributes nothing to the scanned segment list. -/
theorem dirSegs_cons_other (rest : List DirEntry) :
    dirSegs (DirEntry.otherFile :: rest) = dirSegs rest := by
  simp [dirSegs]

/-- A segment entry contributes nothing to the scanned index list. -/
theorem dirIdxs_cons_seg (s : Segment) (rest : List DirEntry) :
    dirIdxs (DirEntry.segFile s :: rest) = dirIdxs rest := by
  simp [dirIdxs]

/-- An index entry contributes itself to the scanned index list. -/
theorem dirIdxs_cons_idx (i : Index) (rest : List DirEntry) :
    dirIdxs (DirEntry.idxFile i :: rest) = i :: dirIdxs rest := by
  simp [dirIdxs]

/-- An unrecognised entry contributes nothing to the scanned index list. -/
theorem dirIdxs_cons_other (rest : List DirEntry) :
    dirIdxs (DirEntry.otherFile :: rest) = dirIdxs rest := by
  simp [dirIdxs]

/-- Keys present after a successful scan: the accumulator keys plus the
starting offsets of the opened files. -/
theorem scanFiles_ok_keys (dir : List DirEntry) :
    ∀ segs idxs S I, scanFiles dir segs idxs = Except.ok (S, I) →
      (∀ k, k ∈ btKeys S ↔
        k ∈ btKeys segs ∨ ∃ s ∈ dirSegs dir, Segment.startingOffset s = k) ∧
      (∀ k, k ∈ btKeys I ↔
        k ∈ btKeys idxs ∨ ∃ i ∈ dirIdxs dir, Index.startingOffset i = k) := by
  induction dir with
  | nil =>
    intro segs idxs S I h
    have h' : (segs, idxs) = (S, I) := by
      injection h
    have h1 : segs = S := congrArg Prod.fst h'
    have h2 : idxs = I := congrArg Prod.snd h'
    subst h1
    subst h2
    constructor
    · intro k
      simp [dirSegs]
    · intro k
      simp [dirIdxs]
  | cons e rest ih =>
    intro segs idxs S I h
    cases e with
    | segFile s =>
      have h' := ih _ idxs S I h
      constructor
      · intro k
        rw [h'.1 k, btKeys_btInsert, dirSegs_cons_seg]
        constructor
        · rintro ((rfl | hk) | ⟨s', hs', rfl⟩)
          · exact Or.inr ⟨s, List.mem_cons_self s _, rfl⟩
          · exact Or.inl hk
          · exact Or.inr ⟨s', List.mem_cons_of_mem s hs', rfl⟩
        · rintro (hk | ⟨s', hs', rfl⟩)
          · exact Or.inl (Or.inr hk)
          · rcases List.mem_cons.mp hs' with rfl | h''
            · exact Or.inl (Or.inl rfl)
            · exact Or.inr ⟨s', h'', rfl⟩
      · intro k
        rw [h'.2 k, dirIdxs_cons_seg]
    | segOpenErr => exact Except.noConfusion h
    | idxFile i =>
      have h' := ih segs _ S I h
      constructor
      · intro k
        rw [h'.1 k, dirSegs_cons_idx]
      · intro k
        rw [h'.2 k, btKeys_btInsert, dirIdxs_cons_idx]
        constructor
        · rintro ((rfl | hk) | ⟨i', hi', rfl⟩)
          · exact Or.inr ⟨i, List.mem_cons_self i _, rfl⟩
          · exact Or.inl hk
          · exact Or.inr ⟨i', List.mem_cons_of_mem i hi', rfl⟩
        · rintro (hk | ⟨i', hi', rfl⟩)
          · exact Or.inl (Or.inr hk)
          · rcases List.mem_cons.mp hi' with rfl | h''
            · exact Or.inl (Or.inl rfl)
            · exact Or.inr ⟨i', h'', rfl⟩
    | idxOpenErr => exact Except.noConfusion h
    | otherFile =>
      have h' := ih segs idxs S I h
      constructor
      · intro k
        rw [h'.1 k, dirSegs_cons_other]
      · intro k
        rw [h'.2 k, dirIdxs_cons_other]

/-- Bindings present after a successful scan of a listing with distinct
starting offsets: the accumulator bindings plus each opened file stored
under its own offset. -/
theorem scanFiles_ok_mem (dir : List DirEntry) :
    ∀ segs idxs S I,
      MapSorted segs → MapSorted idxs →
      (btKeys segs ++ (dirSegs dir).map Segment.startingOffset).Nodup →
      (btKeys idxs ++ (dirIdxs dir).map Index.startingOffset).Nodup →
      scanFiles dir segs idxs = Except.ok (S, I) →
      (∀ k v, (k, v) ∈ S ↔
        (k, v) ∈ segs ∨ (v ∈ dirSegs dir ∧ Segment.startingOffset v = k)) ∧
      (∀ k v, (k, v) ∈ I ↔
        (k, v) ∈ idxs ∨ (v ∈ dirIdxs dir ∧ Index.startingOffset v = k)) := by
  induction dir with
  | nil =>
    intro segs idxs S I _ _ _ _ h
    have h' : (segs, idxs) = (S, I) := by
      injection h
    have h1 : segs = S := congrArg Prod.fst h'
    have h2 : idxs = I := congrArg Prod.snd h'
    subst h1
    subst h2
    constructor
    · intro k v
      simp [dirSegs]
    · intro k v
      simp [dirIdxs]
  | cons e rest ih =>
    intro segs idxs S I hms hmi hndS hndI h
    cases e with
    | segFile s =>
      rw [dirSegs_cons_seg, List.map_cons] at hndS
      have hnd1 : (s.startingOffset ::
          (btKeys segs ++ (dirSegs rest).map Segment.startingOffset)).Nodup :=
        (List.Perm.nodup_iff List.perm_middle).mp hndS
      rcases List.nodup_cons.mp hnd1 with ⟨hnotin, _⟩
      have hnotin_segs : s.startingOffset ∉ btKeys segs :=
        fun hc => hnotin (List.mem_append_left _ hc)
      have hpermIns : List.Perm (btKeys (btInsert s.startingOffset s segs))
          (s.startingOffset :: btKeys segs) :=
        btKeys_btInsert_perm _ s segs hnotin_segs
      have hndrec : (btKeys (btInsert s.startingOffset s segs) ++
          (dirSegs rest).map Segment.startingOffset).Nodup := by
        refine (List.Perm.nodup_iff ?_).mp hnd1
        exact List.Perm.append_right _ hpermIns.symm
      have ihres := ih _ idxs S I (btInsert_sorted _ s segs hms) hmi hndrec hndI h
      constructor
      · intro k v
        rw [ihres.1 k v, dirSegs_cons_seg, btInsert_mem _ _ _ hms]
        constructor
        · rintro ((⟨rfl, rfl⟩ | ⟨hmem, _⟩) | ⟨hv, rfl⟩)
          · exact Or.inr ⟨List.mem_cons_self _ _, rfl⟩
          · exact Or.inl hmem
          · exact Or.inr ⟨List.mem_cons_of_mem _ hv, rfl⟩
        · rintro (hmem | ⟨hv, rfl⟩)
          · refine Or.inl (Or.inr ⟨hmem, ?_⟩)
            exact fun hk => hnotin_segs (hk ▸ mem_btKeys_of_mem k v segs hmem)
          · rcases List.mem_cons.mp hv with rfl | hv'
            · exact Or.inl (Or.inl ⟨rfl, rfl⟩)
            · exact Or.inr ⟨hv', rfl⟩
      · intro k v
        rw [ihres.2 k v, dirIdxs_cons_seg]
    | segOpenErr => exact Except.noConfusion h
    | idxFile i =>
      rw [dirIdxs_cons_idx, List.map_cons] at hndI
      have hnd1 : (i.startingOffset ::
          (btKeys idxs ++ (dirIdxs rest).map Index.startingOffset)).Nodup :=
        (List.Perm.nodup_iff List.perm_middle).mp hndI
      rcases List.nodup_cons.mp hnd1 with ⟨hnotin, _⟩
      have hnotin_idxs : i.startingOffset ∉ btKeys idxs :=
        fun hc => hnotin (List.mem_append_left _ hc)
      have hpermIns : List.Perm (btKeys (btInsert i.startingOffset i idxs))
          (i.startingOffset :: btKeys idxs) :=
        btKeys_btInsert_perm _ i idxs hnotin_idxs
      have hndrec : (btKeys (btInsert i.startingOffset i idxs) ++
          (dirIdxs rest).map Index.startingOffset).Nodup := by
        refine (List.Perm.nodup_iff ?_).mp hnd1
        exact List.Perm.append_right _ hpermIns.symm
      have ihres := ih segs _ S I hms (btInsert_sorted _ i idxs hmi) hndS hndrec h
      constructor
      · intro k v
        rw [ihres.1 k v, dirSegs_cons_idx]
      · intro k v
        rw [ihres.2 k v, dirIdxs_cons_idx, btInsert_mem _ _ _ hmi]
        constructor
        · rintro ((⟨rfl, rfl⟩ | ⟨hmem, _⟩) | ⟨hv, rfl⟩)
          · exact Or.inr ⟨List.mem_cons_self _ _, rfl⟩
          · exact Or.inl hmem
          · exact Or.inr ⟨List.mem_cons_of_mem _ hv, rfl⟩
        · rintro (hmem | ⟨hv, rfl⟩)
          · refine Or.inl (Or.inr ⟨hmem, ?_⟩)
            exact fun hk => hnotin_idxs (hk ▸ mem_btKeys_of_mem k v idxs hmem)
          · rcases List.mem_cons.mp hv with rfl | hv'
            · exact Or.inl (Or.inl ⟨rfl, rfl⟩)
            · exact Or.inr ⟨hv', rfl⟩
    | idxOpenErr => exact Except.noConfusion h
    | otherFile =>
      rw [dirSegs_cons_other] at hndS
      rw [dirIdxs_cons_other] at hndI
      have ihres := ih segs idxs S I hms hmi hndS hndI h
      constructor
      · intro k v
        rw [ihres.1 k v, dirSegs_cons_other]
      · intro k v
        rw [ihres.2 k v, dirIdxs_cons_other]

/-- The segment keys after a successful scan of a listing with distinct
segment offsets are a permutation of the accumulator keys followed by
the scanned segment offsets. -/
theorem scanFiles_ok_keys_perm (dir : List DirEntry) :
    ∀ segs idxs S I,
      (btKeys segs ++ (dirSegs dir).map Segment.startingOffset).Nodup →
      scanFiles dir segs idxs = Except.ok (S, I) →
      List.Perm (btKeys S) (btKeys segs ++ (dirSegs dir).map Segment.startingOffset) := by
  induction dir with
  | nil =>
    intro segs idxs S I _ h
    have h' : (segs, idxs) = (S, I) := by
      injection h
    have h1 : segs = S := congrArg Prod.fst h'
    subst h1
    simp [dirSegs]
  | cons e rest ih =>
    intro segs idxs S I hnd h
    cases e with
    | segFile s =>
      rw [dirSegs_cons_seg, List.map_cons] at hnd ⊢
      have hnd1 : (s.startingOffset ::
          (btKeys segs ++ (dirSegs rest).map Segment.startingOffset)).Nodup :=
        (List.Perm.nodup_iff List.perm_middle).mp hnd
      rcases List.nodup_cons.mp hnd1 with ⟨hnotin, _⟩
      have hnotin_segs : s.startingOffset ∉ btKeys segs :=
        fun hc => hnotin (List.mem_append_left _ hc)
      have hpermIns : List.Perm (btKeys (btInsert s.startingOffset s segs))
          (s.startingOffset :: btKeys segs) :=
        btKeys_btInsert_perm _ s segs hnotin_segs
      have hndrec : (btKeys (btInsert s.startingOffset s segs) ++
          (dirSegs rest).map Segment.startingOffset).Nodup := by
        refine (List.Perm.nodup_iff ?_).mp hnd1
        exact List.Perm.append_right _ hpermIns.symm
      have ihres := ih _ idxs S I hndrec h
      refine ihres.trans ?_
      refine List.Perm.trans (List.Perm.append_right _ hpermIns) ?_
      exact List.perm_middle.symm
    | segOpenErr => exact Except.noConfusion h
    | idxFile i =>
      rw [dirSegs_cons_idx] at hnd ⊢
      exact ih segs _ S I hnd h
    | idxOpenErr => exact Except.noConfusion h
    | otherFile =>
      rw [dirSegs_cons_other] at hnd ⊢
      exact ih segs idxs S I hnd h

/-- Pairing succeeds when every segment key has an index with the same
key. -/
theorem pairUp_ok_of_keys (segs : List (Nat × Segment)) :
    ∀ idxs, MapSorted segs → (∀ k ∈ btKeys segs, k ∈ btKeys idxs) →
      ∃ r, pairUp idxs segs = Except.ok r := by
  induction segs with
  | nil =>
    intro idxs _ _
    exact ⟨[], rfl⟩
  | cons q rest ih =>
    intro idxs hs h
    rcases List.pairwise_cons.mp hs with ⟨hq, ht⟩
    obtain ⟨i, s⟩ := q
    have hmem : i ∈ btKeys idxs := h i (List.mem_cons_self _ _)
    cases hl : btLookup i idxs with
    | none => exact absurd hmem ((btLookup_eq_none_iff i idxs).mp hl)
    | some v =>
      have hrest : ∀ k ∈ btKeys rest, k ∈ btKeys (btRemove i idxs) := by
        intro k hk
        have hik : i < k := by
          rcases List.mem_map.mp hk with ⟨a, ha, hak⟩
          rw [← hak]
          exact hq a ha
        have hki : k ≠ i := Nat.ne_of_gt hik
        have hmemk : k ∈ btKeys idxs := h k (List.mem_cons_of_mem _ hk)
        by_contra hcon
        have hnone := (btLookup_eq_none_iff k (btRemove i idxs)).mpr hcon
        rw [btLookup_btRemove_ne i k idxs hki] at hnone
        exact (btLookup_eq_none_iff k idxs).mp hnone hmemk
      obtain ⟨r, hr⟩ := ih (btRemove i idxs) ht hrest
      refine ⟨(i, (v, s)) :: r, ?_⟩
      simp only [pairUp, hl, hr, Except.map]

/-- Pairing panics when some segment key has no index with the same
key. -/
theorem pairUp_error_of_missing (segs : List (Nat × Segment)) :
    ∀ idxs, MapSorted segs → (∃ k ∈ btKeys segs, k ∉ btKeys idxs) →
      ∃ o, pairUp idxs segs = Except.error (LoadErr.panicMissingIndex o) := by
  induction segs with
  | nil =>
    rintro idxs _ ⟨k, hk, _⟩
    simp [btKeys] at hk
  | cons q rest ih =>
    rintro idxs hs ⟨k, hk, hmiss⟩
    rcases List.pairwise_cons.mp hs with ⟨hq, ht⟩
    obtain ⟨i, s⟩ := q
    cases hl : btLookup i idxs with
    | none =>
      refine ⟨i, ?_⟩
      simp only [pairUp, hl]
    | some v =>
      have hi_in : i ∈ btKeys idxs := by
        by_contra hcon
        have := (btLookup_eq_none_iff i idxs).mpr hcon
        rw [this] at hl
        exact Option.noConfusion hl
      have hki : k ≠ i := fun h => hmiss (h ▸ hi_in)
      have hk' : k ∈ btKeys rest := by
        simp only [btKeys, List.map_cons, List.mem_cons] at hk
        rcases hk with rfl | h'
        · exact absurd rfl hki
        · exact h'
      have hmiss' : k ∉ btKeys (btRemove i idxs) := by
        intro hcon
        have h1 : btLookup k (btRemove i idxs) = btLookup k idxs :=
          btLookup_btRemove_ne i k idxs hki
        have h2 : btLookup k idxs = none := (btLookup_eq_none_iff k idxs).mpr hmiss
        rw [h2] at h1
        exact (btLookup_eq_none_iff k (btRemove i idxs)).mp h1 hcon
      obtain ⟨o, ho⟩ := ih (btRemove i idxs) ht ⟨k, hk', hmiss'⟩
      refine ⟨o, ?_⟩
      simp only [pairUp, hl, ho, Except.map]

/-- Pairing preserves the key list of the segment map. -/
theorem pairUp_ok_keys (segs : List (Nat × Segment)) :
    ∀ idxs r, pairUp idxs segs = Except.ok r → btKeys r = btKeys segs := by
  induction segs with
  | nil =>
    intro idxs r h
    have h' : ([] : List (Nat × (Index × Segment))) = r := by
      injection h
    rw [← h']
    rfl
  | cons q rest ih =>
    intro idxs r h
    obtain ⟨i, s⟩ := q
    simp only [pairUp] at h
    cases hl : btLookup i idxs with
    | none =>
      rw [hl] at h
      exact Except.noConfusion h
    | some v =>
      rw [hl] at h
      cases hrec : pairUp (btRemove i idxs) rest with
      | error e =>
        rw [hrec] at h
        simp only [Except.map] at h
        exact Except.noConfusion h
      | ok t =>
        rw [hrec] at h
        simp only [Except.map] at h
        have ht : (i, (v, s)) :: t = r := by
          injection h
        rw [← ht]
        simp only [btKeys, List.map_cons]
        have := ih (btRemove i idxs) t hrec
        simp only [btKeys] at this
        rw [this]

/-- Bindings of a successful pairing: each sorted segment binding joined
with the index found under the same key. -/
theorem pairUp_ok_mem (segs : List (Nat × Segment)) :
    ∀ idxs r, MapSorted segs → pairUp idxs segs = Except.ok r →
      ∀ k ind sg, (k, (ind, sg)) ∈ r ↔
        ((k, sg) ∈ segs ∧ btLookup k idxs = some ind) := by
  induction segs with
  | nil =>
    intro idxs r _ h k ind sg
    have h' : ([] : List (Nat × (Index × Segment))) = r := by
      injection h
    rw [← h']
    simp
  | cons q rest ih =>
    intro idxs r hs h k ind sg
    rcases List.pairwise_cons.mp hs with ⟨hq, ht⟩
    obtain ⟨i, s⟩ := q
    simp only [pairUp] at h
    cases hl : btLookup i idxs with
    | none =>
      rw [hl] at h
      exact Except.noConfusion h
    | some v =>
      rw [hl] at h
      cases hrec : pairUp (btRemove i idxs) rest with
      | error e =>
        rw [hrec] at h
        simp only [Except.map] at h
        exact Except.noConfusion h
      | ok t =>
        rw [hrec] at h
        simp only [Except.map] at h
        have hteq : (i, (v, s)) :: t = r := by
          injection h
        rw [← hteq]
        have hrestk : ∀ sg', (k, sg') ∈ rest → i < k := by
          intro sg' hmem
          exact hq (k, sg') hmem
        constructor
        · intro hmem
          rcases List.mem_cons.mp hmem with heq | hmem'
          · have hk : k = i := congrArg Prod.fst heq
            have hvs : (ind, sg) = (v, s) := congrArg Prod.snd heq
            have hind : ind = v := congrArg Prod.fst hvs
            have hsg : sg = s := congrArg Prod.snd hvs
            subst hk
            subst hind
            subst hsg
            exact ⟨List.mem_cons_self _ _, hl⟩
          · rcases (ih (btRemove i idxs) t ht hrec k ind sg).mp hmem' with ⟨hmem2, hlook⟩
            have hik : i < k := hrestk sg hmem2
            rw [btLookup_btRemove_ne i k idxs (Nat.ne_of_gt hik)] at hlook
            exact ⟨List.mem_cons_of_mem _ hmem2, hlook⟩
        · rintro ⟨hmem, hlook⟩
          rcases List.mem_cons.mp hmem with heq | hmem'
          · have hk : k = i := congrArg Prod.fst heq
            have hsg : sg = s := congrArg Prod.snd heq
            subst hk
            subst hsg
            rw [hl] at hlook
            have hind : v = ind := by
              injection hlook
            rw [← hind]
            exact List.mem_cons_self _ _
          · have hik : i < k := hrestk sg hmem'
            refine List.mem_cons_of_mem _ ?_
            refine (ih (btRemove i idxs) t ht hrec k ind sg).mpr ⟨hmem', ?_⟩
            rw [btLookup_btRemove_ne i k idxs (Nat.ne_of_gt hik)]
            exact hlook

/-- Bindings after the read-only pass: each original binding with its
index marked read-only. -/
theorem setReadonlyAll_mem (m : List (Nat × (Index × Segment)))
    (k : Nat) (ind : Index) (sg : Segment) :
    (k, (ind, sg)) ∈ setReadonlyAll m ↔
      ∃ ind0, (k, (ind0, sg)) ∈ m ∧ ind = ind0.set_readonly := by
  unfold setReadonlyAll
  rw [List.mem_map]
  constructor
  · rintro ⟨⟨k0, ind0, sg0⟩, hq, heq⟩
    have hk : k0 = k := congrArg Prod.fst heq
    have hp : (Index.set_readonly ind0, sg0) = (ind, sg) := congrArg Prod.snd heq
    have hi : Index.set_readonly ind0 = ind := congrArg Prod.fst hp
    have hsg : sg0 = sg := congrArg Prod.snd hp
    subst hk
    subst hsg
    exact ⟨ind0, hq, hi.symm⟩
  · rintro ⟨ind0, hmem, rfl⟩
    exact ⟨(k, (ind0, sg)), hmem, rfl⟩

/-- The read-only pass does not change the key list. -/
theorem btKeys_setReadonlyAll (m : List (Nat × (Index × Segment))) :
    btKeys (setReadonlyAll m) = btKeys m := by
  unfold setReadonlyAll btKeys
  rw [List.map_map]
  rfl

/-- Destructor for a successful `load_log`: the scan succeeded, the
pairing succeeded, and the result either reuses the pair with the last
(greatest) key or starts fresh at offset 0 when no pair exists. -/
theorem load_log_ok_elim (dir : List DirEntry) (fs : FileSet)
    (h : FileSet.load_log dir = Except.ok fs) :
    ∃ S I closed, scanFiles dir [] [] = Except.ok (S, I) ∧
      pairUp I S = Except.ok closed ∧
      ((∃ off p, (btKeys closed).getLast? = some off ∧ btLookup off closed = some p ∧
          fs = { active := p, closed := setReadonlyAll (btRemove off closed) }) ∨
        ((btKeys closed).getLast? = none ∧
          fs = { active := (Index.new 0, Segment.new 0),
                 closed := setReadonlyAll closed })) := by
  unfold FileSet.load_log at h
  cases hscan : scanFiles dir [] [] with
  | error e =>
    rw [hscan] at h
    exact Except.noConfusion h
  | ok SI =>
    obtain ⟨S, I⟩ := SI
    rw [hscan] at h
    dsimp only at h
    cases hpair : pairUp I S with
    | error e =>
      rw [hpair] at h
      exact Except.noConfusion h
    | ok closed =>
      rw [hpair] at h
      dsimp only at h
      refine ⟨S, I, closed, rfl, hpair, ?_⟩
      cases hlast : (btKeys closed).getLast? with
      | some off =>
        rw [hlast] at h
        dsimp only at h
        cases hlook : btLookup off closed with
        | some p =>
          rw [hlook] at h
          dsimp only at h
          have hfs : ({ active := p, closed := setReadonlyAll (btRemove off closed) } : FileSet) = fs := by
            injection h
          exact Or.inl ⟨off, p, rfl, hlook, hfs.symm⟩
        | none =>
          rw [hlook] at h
          exact Except.noConfusion h
      | none =>
        rw [hlast] at h
        dsimp only at h
        have hfs : ({ active := (Index.new 0, Segment.new 0), closed := setReadonlyAll closed } : FileSet) = fs := by
          injection h
        exact Or.inr ⟨rfl, hfs.symm⟩

/-- A successful `roll_segment` requires every external call of the
environment to have succeeded. -/
theorem roll_segment_ok_env (env : RollEnv) (fs : FileSet)
    (h : (FileSet.roll_segment env fs).ok = true) :
    env.setReadonlyOk = true ∧ env.flushOk = true ∧
      env.segmentNewOk = true ∧ env.indexNewOk = true := by
  rcases env with ⟨a, b, c, d⟩
  cases a <;> cases b <;> cases c <;> cases d <;>
    simp_all [FileSet.roll_segment]

/-- State after a successful `roll_segment`: the new active pair is
freshly created at the retiring index's next offset, and the retired
pair — index marked read-only, segment flushed — is inserted into the
closed collection keyed by the retired segment's starting offset. -/
theorem roll_segment_success (env : RollEnv) (fs : FileSet)
    (h : (FileSet.roll_segment env fs).ok = true) :
    (FileSet.roll_segment env fs).fileSet =
      { active := (Index.new fs.active.1.nextOffset, Segment.new fs.active.1.nextOffset),
        closed := btInsert fs.active.2.startingOffset
          (fs.active.1.set_readonly, fs.active.2.flush_sync) fs.closed } := by
  rcases roll_segment_ok_env env fs h with ⟨h1, h2, h3, h4⟩
  rcases env with ⟨a, b, c, d⟩
  simp only at h1 h2 h3 h4
  subst h1; subst h2; subst h3; subst h4
  simp [FileSet.roll_segment, Index.set_readonly, Segment.flush_sync]

/-- C3: after every successful `roll_segment`, the new active pair's
starting offset equals the prior active index's next-offset value, and
the prior active pair sits in the closed collection keyed by its own
starting offset with its index marked read-only. -/
theorem C3_roll_segment_post (env : RollEnv) (fs : FileSet)
    (hok : (FileSet.roll_segment env fs).ok = true)
    (hmatch : fs.active.1.startingOffset = fs.active.2.startingOffset) :
    (FileSet.roll_segment env fs).fileSet.active.1.startingOffset = fs.active.1.nextOffset ∧
    (FileSet.roll_segment env fs).fileSet.active.2.startingOffset = fs.active.1.nextOffset ∧
    btLookup fs.active.1.startingOffset (FileSet.roll_segment env fs).fileSet.closed =
      some (fs.active.1.set_readonly, fs.active.2.flush_sync) ∧
    (fs.active.1.set_readonly).readonly = true := by
  rw [roll_segment_success env fs hok]
  refine ⟨rfl, rfl, ?_, rfl⟩
  simp only [hmatch]
  exact btLookup_btInsert_self _ _ _

/-- Concrete instantiation of the C3 theorem: rolling the sample file
set (active pair at offset 10, next offset 15) with every external call
succeeding. -/
theorem C3_roll_segment_post_witness :
    ((FileSet.roll_segment allOk fsW).ok = true ∧
      fsW.active.1.startingOffset = fsW.active.2.startingOffset) ∧
    ((FileSet.roll_segment allOk fsW).fileSet.active.1.startingOffset =
        fsW.active.1.nextOffset ∧
    (FileSet.roll_segment allOk fsW).fileSet.active.2.startingOffset =
        fsW.active.1.nextOffset ∧
    btLookup fsW.active.1.startingOffset (FileSet.roll_segment allOk fsW).fileSet.closed =
      some (fsW.active.1.set_readonly, fsW.active.2.flush_sync) ∧
    (fsW.active.1.set_readonly).readonly = true) :=
  ⟨⟨by decide, by decide⟩, C3_roll_segment_post allOk fsW (by decide) (by decide)⟩

/-- C8: when `roll_segment` fails at the new-pair-creation step after
the read-only marking and the flush succeeded, the error is reported and
the in-memory structure is unchanged apart from those two completed
mutations: the old pair (read-only index, flushed segment, same starting
offsets) is still the active pair and the closed collection is
untouched. -/
theorem C8_roll_segment_creation_failure (env : RollEnv) (fs : FileSet)
    (h1 : env.setReadonlyOk = true) (h2 : env.flushOk = true)
    (h3 : env.segmentNewOk = false ∨ env.indexNewOk = false) :
    (FileSet.roll_segment env fs).ok = false ∧
    (FileSet.roll_segment env fs).fileSet.closed = fs.closed ∧
    (FileSet.roll_segment env fs).fileSet.active.1 = fs.active.1.set_readonly ∧
    (FileSet.roll_segment env fs).fileSet.active.2 = fs.active.2.flush_sync ∧
    (FileSet.roll_segment env fs).fileSet.active.1.startingOffset =
      fs.active.1.startingOffset ∧
    (FileSet.roll_segment env fs).fileSet.active.2.startingOffset =
      fs.active.2.startingOffset := by
  rcases env with ⟨a, b, c, d⟩
  simp only at h1 h2
  subst h1; subst h2
  rcases h3 with h3 | h3
  · simp only at h3
    subst h3
    simp [FileSet.roll_segment, Index.set_readonly, Segment.flush_sync]
  · simp only at h3
    subst h3
    cases c <;> simp [FileSet.roll_segment, Index.set_readonly, Segment.flush_sync]

/-- Concrete instantiation of the C8 theorem: a roll of the sample file
set in which only the new-index creation fails. -/
theorem C8_roll_segment_creation_failure_witness :
    (RollEnv.setReadonlyOk ⟨true, true, true, false⟩ = true ∧
      RollEnv.flushOk ⟨true, true, true, false⟩ = true ∧
      (RollEnv.segmentNewOk ⟨true, true, true, false⟩ = false ∨
        RollEnv.indexNewOk ⟨true, true, true, false⟩ = false)) ∧
    ((FileSet.roll_segment ⟨true, true, true, false⟩ fsW).ok = false ∧
    (FileSet.roll_segment ⟨true, true, true, false⟩ fsW).fileSet.closed = fsW.closed ∧
    (FileSet.roll_segment ⟨true, true, true, false⟩ fsW).fileSet.active.1 =
      fsW.active.1.set_readonly ∧
    (FileSet.roll_segment ⟨true, true, true, false⟩ fsW).fileSet.active.2 =
      fsW.active.2.flush_sync ∧
    (FileSet.roll_segment ⟨true, true, true, false⟩ fsW).fileSet.active.1.startingOffset =
      fsW.active.1.startingOffset ∧
    (FileSet.roll_segment ⟨true, true, true, false⟩ fsW).fileSet.active.2.startingOffset =
      fsW.active.2.startingOffset) :=
  ⟨⟨by decide, by decide, Or.inr (by decide)⟩,
    C8_roll_segment_creation_failure ⟨true, true, true, false⟩ fsW
      (by decide) (by decide) (Or.inr (by decide))⟩

/-- C9: in every execution of `roll_segment` the completed steps form a
prefix of the source order — set-readonly, flush, next-offset query,
segment creation, index creation, swap, closed insertion — so no later
step is performed once an earlier one fails, and a successful call
performs them all. -/
theorem C9_roll_segment_order (env : RollEnv) (fs : FileSet) :
    (∃ n, (FileSet.roll_segment env fs).trace = fullRollTrace.take n) ∧
    ((FileSet.roll_segment env fs).ok = true →
      (FileSet.roll_segment env fs).trace = fullRollTrace) := by
  rcases env with ⟨a, b, c, d⟩
  cases a <;> cases b <;> cases c <;> cases d <;>
    first
      | exact ⟨⟨7, rfl⟩, fun _ => rfl⟩
      | exact ⟨⟨0, rfl⟩, fun h => Bool.noConfusion h⟩
      | exact ⟨⟨1, rfl⟩, fun h => Bool.noConfusion h⟩
      | exact ⟨⟨3, rfl⟩, fun h => Bool.noConfusion h⟩
      | exact ⟨⟨4, rfl⟩, fun h => Bool.noConfusion h⟩

/-- Concrete instantiation of the C9 theorem at the all-success
environment and the sample file set. -/
theorem C9_roll_segment_order_witness :
    (∃ n, (FileSet.roll_segment allOk fsW).trace = fullRollTrace.take n) ∧
    ((FileSet.roll_segment allOk fsW).ok = true →
      (FileSet.roll_segment allOk fsW).trace = fullRollTrace) :=
  C9_roll_segment_order allOk fsW

/-- Removing a present key shortens the map by exactly one binding. -/
theorem btRemove_length_of_mem {α : Type} (k : Nat) (m : List (Nat × α))
    (h : k ∈ btKeys m) : (btRemove k m).length + 1 = m.length := by
  induction m with
  | nil => simp [btKeys] at h
  | cons q t ih =>
    by_cases h1 : q.1 = k
    · simp [btRemove, h1]
    · have hk : k ∈ btKeys t := by
        simp only [btKeys, List.map_cons, List.mem_cons] at h
        rcases h with rfl | h'
        · exact absurd rfl h1
        · exact h'
      simp only [btRemove, if_neg h1, List.length_cons]
      rw [← ih hk]

/-- Invariant established by every successful load: each closed key lies
strictly below the active index's starting offset, and the active index
and segment share their starting offset. -/
theorem load_log_invariant (dir : List DirEntry) (fs : FileSet)
    (h : FileSet.load_log dir = Except.ok fs) :
    (∀ q ∈ fs.closed, q.1 < fs.active.1.startingOffset) ∧
      fs.active.1.startingOffset = fs.active.2.startingOffset := by
  obtain ⟨S, I, closed, hscan, hpair, hcase⟩ := load_log_ok_elim dir fs h
  have hsorted := scanFiles_ok_sorted dir [] [] S I
    (by simp [MapSorted]) (by simp [MapSorted]) hscan
  have hentries := scanFiles_ok_entries dir [] [] S I
    (by simp) (by simp) hscan
  have hkeysEq := pairUp_ok_keys S I closed hpair
  have hclosedSorted : MapSorted closed := by
    rw [mapSorted_iff_keys, hkeysEq, ← mapSorted_iff_keys]
    exact hsorted.1
  rcases hcase with ⟨off, p, hlast, hlook, rfl⟩ | ⟨hlast, rfl⟩
  · have hpmem : (off, p) ∈ closed := btLookup_mem off closed p hlook
    obtain ⟨ind, sg⟩ := p
    rcases (pairUp_ok_mem S I closed hsorted.1 hpair off ind sg).mp hpmem with ⟨hs, hlookI⟩
    have hsgoff : Segment.startingOffset sg = off := hentries.1 (off, sg) hs
    have hindmem : (off, ind) ∈ I := btLookup_mem off I ind hlookI
    have hindoff : Index.startingOffset ind = off := hentries.2 (off, ind) hindmem
    rcases btMax_spec closed off hclosedSorted hlast with ⟨p', _, _, hmax⟩
    constructor
    · intro q hq
      have hqk : q.1 ∈ btKeys (btRemove off closed) := by
        have h0 : q.1 ∈ btKeys (setReadonlyAll (btRemove off closed)) :=
          mem_btKeys_of_mem q.1 q.2 _ hq
        rw [btKeys_setReadonlyAll] at h0
        exact h0
      rcases List.mem_map.mp hqk with ⟨a, ha, hak⟩
      rcases (btRemove_mem off closed hclosedSorted a.1 a.2).mp ha with ⟨hamem, hane⟩
      have hle : a.1 ≤ off := hmax a hamem
      have hlt : a.1 < off := Nat.lt_of_le_of_ne hle hane
      show q.1 < Index.startingOffset ind
      rw [hindoff, ← hak]
      exact hlt
    · show Index.startingOffset ind = Segment.startingOffset sg
      rw [hindoff, hsgoff]
  · have hclosednil : closed = [] := btKeys_getLast?_none closed hlast
    subst hclosednil
    constructor
    · intro q hq
      exact absurd hq (List.not_mem_nil q)
    · rfl

/-- Successful rolls of a non-empty active pair preserve the closed-keys
invariant. -/
theorem roll_preserves_invariant (env : RollEnv) (fs : FileSet)
    (hok : (FileSet.roll_segment env fs).ok = true)
    (hlt : fs.active.1.startingOffset < fs.active.1.nextOffset)
    (hinv : (∀ q ∈ fs.closed, q.1 < fs.active.1.startingOffset) ∧
      fs.active.1.startingOffset = fs.active.2.startingOffset) :
    (∀ q ∈ (FileSet.roll_segment env fs).fileSet.closed,
        q.1 < (FileSet.roll_segment env fs).fileSet.active.1.startingOffset) ∧
      (FileSet.roll_segment env fs).fileSet.active.1.startingOffset =
        (FileSet.roll_segment env fs).fileSet.active.2.startingOffset := by
  rw [roll_segment_success env fs hok]
  constructor
  · intro q hq
    rcases btInsert_mem_sub _ _ _ q hq with rfl | hq'
    · show Segment.startingOffset fs.active.2 < fs.active.1.nextOffset
      rw [← hinv.2]
      exact hlt
    · exact lt_trans (hinv.1 q hq') hlt
  · rfl

/-- Every state reachable through non-empty rolls satisfies the
closed-keys invariant. -/
theorem reachableNE_invariant (fs : FileSet) (h : ReachableNonEmptyRolls fs) :
    (∀ q ∈ fs.closed, q.1 < fs.active.1.startingOffset) ∧
      fs.active.1.startingOffset = fs.active.2.startingOffset := by
  induction h with
  | load dir fs0 h0 => exact load_log_invariant dir fs0 h0
  | roll env fs0 _ hok hlt ih => exact roll_preserves_invariant env fs0 hok hlt ih

/-- C10: the expression `offset + 1` inside `find` never overflows a u64.
For any file set whose active starting offset is a u64 value and any u64
offset for which the closed-collection branch is reached (the offset is
below the active starting offset), `offset + 1` stays below `2 ^ 64`,
so the wrapped range bound equals the exact one and the lookup is
well-defined without wraparound. -/
theorem C10_find_bound_no_overflow (fs : FileSet) (offset : Nat)
    (hoff : offset < 2 ^ 64) (hact : fs.active.1.startingOffset < 2 ^ 64)
    (hbranch : ¬ fs.active.1.startingOffset ≤ offset) :
    offset + 1 < 2 ^ 64 ∧
      fs.find offset = Option.map Prod.snd (btPredLt (offset + 1) fs.closed) := by
  have h1 : offset + 1 ≤ fs.active.1.startingOffset :=
    Nat.succ_le_of_lt (Nat.lt_of_not_le hbranch)
  have h2 : offset + 1 < 2 ^ 64 := lt_of_le_of_lt h1 hact
  refine ⟨h2, ?_⟩
  unfold FileSet.find
  rw [if_neg hbranch, Nat.mod_eq_of_lt h2]

/-- Concrete instantiation of the C10 theorem at offset 3 against a file
set whose active pair starts at offset 10. -/
theorem C10_find_bound_no_overflow_witness :
    ((3 : Nat) < 2 ^ 64 ∧ fsW.active.1.startingOffset < 2 ^ 64 ∧
      ¬ fsW.active.1.startingOffset ≤ 3) ∧
    (3 + 1 < 2 ^ 64 ∧
      fsW.find 3 = Option.map Prod.snd (btPredLt (3 + 1) fsW.closed)) :=
  ⟨⟨by decide, by decide, by decide⟩,
    C10_find_bound_no_overflow fsW 3 (by decide) (by decide) (by decide)⟩

/-- C1: for every file set state (with the BTreeMap sortedness invariant
and u64-ranged offsets) and every offset x: if x is at least the active
pair's starting offset, `find x` returns the active pair; otherwise, when
some closed key is at most x, `find x` returns the closed pair with the
greatest starting offset at most x; and `find x` is `none` exactly when
x is below the active starting offset and below every closed key. -/
theorem C1_find_spec (fs : FileSet) (x : Nat) (hs : MapSorted fs.closed)
    (hact : fs.active.1.startingOffset < 2 ^ 64) (hx : x < 2 ^ 64) :
    (fs.active.1.startingOffset ≤ x → fs.find x = some fs.active) ∧
    (x < fs.active.1.startingOffset → ∀ q ∈ fs.closed, q.1 ≤ x →
      ∃ r, r ∈ fs.closed ∧ r.1 ≤ x ∧ (∀ p ∈ fs.closed, p.1 ≤ x → p.1 ≤ r.1) ∧
        fs.find x = some r.2) ∧
    (fs.find x = none ↔
      (x < fs.active.1.startingOffset ∧ ∀ q ∈ fs.closed, x < q.1)) := by
  by_cases hge : fs.active.1.startingOffset ≤ x
  · refine ⟨fun _ => ?_, fun hlt _ _ _ => absurd hge (Nat.not_le.mpr hlt), ?_⟩
    · unfold FileSet.find
      rw [if_pos hge]
    · constructor
      · intro h
        unfold FileSet.find at h
        rw [if_pos hge] at h
        exact Option.noConfusion h
      · intro ⟨hlt, _⟩
        exact absurd hge (Nat.not_le.mpr hlt)
  · have hlt : x < fs.active.1.startingOffset := Nat.lt_of_not_le hge
    have hmod : (x + 1) % 2 ^ 64 = x + 1 :=
      Nat.mod_eq_of_lt (lt_of_le_of_lt (Nat.succ_le_of_lt hlt) hact)
    have hfind : fs.find x = Option.map Prod.snd (btPredLt (x + 1) fs.closed) := by
      unfold FileSet.find
      rw [if_neg hge, hmod]
    refine ⟨fun h => absurd h hge, ?_, ?_⟩
    · intro _ q hq hqx
      cases hrec : btPredLt (x + 1) fs.closed with
      | none =>
        exact absurd ((btPredLt_none_iff (x + 1) fs.closed hs).mp hrec q hq)
          (Nat.not_le.mpr (Nat.lt_succ_of_le hqx))
      | some r =>
        rcases btPredLt_some_spec (x + 1) fs.closed r hs hrec with ⟨hmem, hrb, hmax⟩
        refine ⟨r, hmem, Nat.lt_succ_iff.mp hrb, ?_, ?_⟩
        · intro p hp hpx
          exact hmax p hp (Nat.lt_succ_of_le hpx)
        · rw [hfind, hrec]
          rfl
    · rw [hfind]
      constructor
      · intro h
        cases hrec : btPredLt (x + 1) fs.closed with
        | none =>
          refine ⟨hlt, fun q hq => ?_⟩
          exact Nat.lt_of_succ_le ((btPredLt_none_iff (x + 1) fs.closed hs).mp hrec q hq)
        | some r =>
          rw [hrec] at h
          exact Option.noConfusion h
      · intro ⟨_, hall⟩
        have hnone : btPredLt (x + 1) fs.closed = none :=
          (btPredLt_none_iff (x + 1) fs.closed hs).mpr
            (fun q hq => Nat.succ_le_of_lt (hall q hq))
        rw [hnone]
        rfl

/-- Concrete instantiation of the C1 theorem at offset 5 against a file
set with active starting offset 10 and one closed pair at offset 0. -/
theorem C1_find_spec_witness :
    (MapSorted fsW.closed ∧ fsW.active.1.startingOffset < 2 ^ 64 ∧ (5 : Nat) < 2 ^ 64) ∧
    ((fsW.active.1.startingOffset ≤ 5 → fsW.find 5 = some fsW.active) ∧
    (5 < fsW.active.1.startingOffset → ∀ q ∈ fsW.closed, q.1 ≤ 5 →
      ∃ r, r ∈ fsW.closed ∧ r.1 ≤ 5 ∧ (∀ p ∈ fsW.closed, p.1 ≤ 5 → p.1 ≤ r.1) ∧
        fsW.find 5 = some r.2) ∧
    (fsW.find 5 = none ↔
      (5 < fsW.active.1.startingOffset ∧ ∀ q ∈ fsW.closed, 5 < q.1))) :=
  ⟨⟨by decide, by decide, by decide⟩,
    C1_find_spec fsW 5 (by decide) (by decide) (by decide)⟩

/-- C4 (counterexample): the claimed invariant fails on the code when an
empty active pair is rolled.  Loading an empty directory and rolling
(all external calls succeeding) yields a reachable state whose closed
collection contains the active pair's starting offset; the retiring
pair's next expected offset equalled its starting offset, exactly the
case the claim includes. -/
theorem C4_counterexample :
    Reachable fsEmptyRolled ∧
      fsEmptyRolled.active.1.startingOffset ∈ btKeys fsEmptyRolled.closed ∧
      (FileSet.roll_segment allOk fsEmptyLoad).ok = true ∧
      fsEmptyLoad.active.1.nextOffset = fsEmptyLoad.active.1.startingOffset := by
  refine ⟨?_, by decide, by decide, by decide⟩
  have h1 : Reachable fsEmptyLoad := Reachable.load [] fsEmptyLoad rfl
  have h2 : (FileSet.roll_segment allOk fsEmptyLoad).ok = true := by decide
  exact Reachable.roll allOk fsEmptyLoad h1 h2

/-- C4 (amended): in every state reachable from a successful load by
successful `roll_segment` calls that each roll a non-empty active pair
(next expected offset strictly above the starting offset), the closed
collection contains no entry whose key equals the active pair's starting
offset. -/
theorem C4_active_key_not_in_closed (fs : FileSet) (h : ReachableNonEmptyRolls fs) :
    ∀ q ∈ fs.closed, q.1 ≠ fs.active.1.startingOffset := by
  intro q hq
  exact Nat.ne_of_lt ((reachableNE_invariant fs h).1 q hq)

/-- Concrete instantiation of the amended C4 theorem: the sample
directory loaded and rolled once with a non-empty active pair. -/
theorem C4_active_key_not_in_closed_witness :
    ReachableNonEmptyRolls fsDirWRolled ∧
      ∀ q ∈ fsDirWRolled.closed, q.1 ≠ fsDirWRolled.active.1.startingOffset := by
  have h0 : FileSet.load_log dirW = Except.ok fsDirWLoaded := by rfl
  have h1 : ReachableNonEmptyRolls fsDirWLoaded :=
    ReachableNonEmptyRolls.load dirW fsDirWLoaded h0
  have h2 : (FileSet.roll_segment allOk fsDirWLoaded).ok = true := by decide
  have h3 : fsDirWLoaded.active.1.startingOffset < fsDirWLoaded.active.1.nextOffset := by
    decide
  have hr : ReachableNonEmptyRolls fsDirWRolled :=
    ReachableNonEmptyRolls.roll allOk fsDirWLoaded h1 h2 h3
  exact ⟨hr, C4_active_key_not_in_closed fsDirWRolled hr⟩

/-- C5: loading a directory containing no segment files and no index
files (only unrecognised entries, if any) succeeds and yields a file set
whose active pair is newly created at starting offset 0 and whose closed
collection is empty. -/
theorem C5_load_log_empty (dir : List DirEntry)
    (h : ∀ e ∈ dir, e = DirEntry.otherFile) :
    FileSet.load_log dir =
      Except.ok { active := (Index.new 0, Segment.new 0), closed := [] } := by
  have hscan : ∀ (d : List DirEntry), (∀ e ∈ d, e = DirEntry.otherFile) →
      scanFiles d [] [] = Except.ok ([], []) := by
    intro d
    induction d with
    | nil =>
      intro _
      rfl
    | cons e rest ih =>
      intro hd
      have he : e = DirEntry.otherFile := hd e (List.mem_cons_self _ _)
      subst he
      exact ih (fun x hx => hd x (List.mem_cons_of_mem _ hx))
  unfold FileSet.load_log
  rw [hscan dir h]
  rfl

/-- Concrete instantiation of the C5 theorem on a directory holding one
unrecognised file. -/
theorem C5_load_log_empty_witness :
    (∀ e ∈ [DirEntry.otherFile], e = DirEntry.otherFile) ∧
    FileSet.load_log [DirEntry.otherFile] =
      Except.ok { active := (Index.new 0, Segment.new 0), closed := [] } :=
  ⟨by decide, C5_load_log_empty [DirEntry.otherFile] (by decide)⟩

/-- C6: loading a directory (whose files all open) in which some segment
file's starting offset has no index file with the same starting offset
does not return an I/O error: it aborts with the missing-index panic
raised during pairing. -/
theorem C6_load_log_missing_index (dir : List DirEntry)
    (hclean : cleanDir dir)
    (hmiss : ∃ s ∈ dirSegs dir,
      Segment.startingOffset s ∉ (dirIdxs dir).map Index.startingOffset) :
    ∃ o, FileSet.load_log dir = Except.error (LoadErr.panicMissingIndex o) := by
  obtain ⟨S, I, hscan⟩ := scanFiles_clean_ok dir [] [] hclean
  rcases hmiss with ⟨s, hsmem, hnoidx⟩
  have hkeys := scanFiles_ok_keys dir [] [] S I hscan
  have hsort := scanFiles_ok_sorted dir [] [] S I
    (by simp [MapSorted]) (by simp [MapSorted]) hscan
  have hkS : Segment.startingOffset s ∈ btKeys S := by
    rw [hkeys.1 _]
    exact Or.inr ⟨s, hsmem, rfl⟩
  have hkI : Segment.startingOffset s ∉ btKeys I := by
    rw [hkeys.2 _]
    rintro (hk | ⟨i, hi, hioff⟩)
    · simp [btKeys] at hk
    · exact hnoidx (List.mem_map.mpr ⟨i, hi, hioff⟩)
  obtain ⟨o, ho⟩ := pairUp_error_of_missing S I hsort.1 ⟨Segment.startingOffset s, hkS, hkI⟩
  refine ⟨o, ?_⟩
  unfold FileSet.load_log
  rw [hscan]
  dsimp only
  rw [ho]

/-- Concrete instantiation of the C6 theorem on a directory holding one
segment file at offset 0 and no index file. -/
theorem C6_load_log_missing_index_witness :
    (cleanDir [DirEntry.segFile segA] ∧
      ∃ s ∈ dirSegs [DirEntry.segFile segA],
        Segment.startingOffset s ∉
          (dirIdxs [DirEntry.segFile segA]).map Index.startingOffset) ∧
    ∃ o, FileSet.load_log [DirEntry.segFile segA] =
      Except.error (LoadErr.panicMissingIndex o) :=
  ⟨⟨by decide, by decide⟩,
    C6_load_log_missing_index [DirEntry.segFile segA] (by decide) (by decide)⟩

/-- C7 (counterexample): an orphan index at offset 0 in an otherwise
empty directory.  Load succeeds and discards the orphan, but the freshly
created active pair sits at starting offset 0 — an orphan offset — so
the claim that the resulting active pair and closed collection contain
no pair at the orphan offsets fails as universally stated. -/
theorem C7_counterexample :
    cleanDir dirOrphanOnly ∧
    (idxO ∈ dirIdxs dirOrphanOnly ∧
      Index.startingOffset idxO ∉ (dirSegs dirOrphanOnly).map Segment.startingOffset) ∧
    FileSet.load_log dirOrphanOnly =
      Except.ok { active := (Index.new 0, Segment.new 0), closed := [] } ∧
    Index.startingOffset (Index.new 0) = Index.startingOffset idxO := by
  refine ⟨by decide, ⟨by decide, by decide⟩, ?_, by decide⟩
  rfl

/-- C7 (amended): for every directory whose files all open, in which
every segment has a matching index, and which contains at least one
segment file, load succeeds — raising no error on account of index files
whose offsets have no matching segment — and the resulting file set's
active pair and closed collection contain no pair at those orphan
offsets. -/
theorem C7_load_log_orphans_discarded (dir : List DirEntry)
    (hclean : cleanDir dir)
    (hall : ∀ s ∈ dirSegs dir,
      Segment.startingOffset s ∈ (dirIdxs dir).map Index.startingOffset)
    (hne : dirSegs dir ≠ []) :
    ∃ fs, FileSet.load_log dir = Except.ok fs ∧
      ∀ o, o ∈ (dirIdxs dir).map Index.startingOffset →
        o ∉ (dirSegs dir).map Segment.startingOffset →
        fs.active.1.startingOffset ≠ o ∧ fs.active.2.startingOffset ≠ o ∧
          btLookup o fs.closed = none := by
  obtain ⟨S, I, hscan⟩ := scanFiles_clean_ok dir [] [] hclean
  have hsort := scanFiles_ok_sorted dir [] [] S I
    (by simp [MapSorted]) (by simp [MapSorted]) hscan
  have hkeys := scanFiles_ok_keys dir [] [] S I hscan
  have hentries := scanFiles_ok_entries dir [] [] S I
    (by simp) (by simp) hscan
  have hSkeys : ∀ k, k ∈ btKeys S ↔ ∃ s ∈ dirSegs dir, Segment.startingOffset s = k := by
    intro k
    rw [hkeys.1 k]
    constructor
    · rintro (hk | hex)
      · simp [btKeys] at hk
      · exact hex
    · exact Or.inr
  have hIkeys : ∀ k, k ∈ btKeys I ↔ ∃ i ∈ dirIdxs dir, Index.startingOffset i = k := by
    intro k
    rw [hkeys.2 k]
    constructor
    · rintro (hk | hex)
      · simp [btKeys] at hk
      · exact hex
    · exact Or.inr
  have hSI : ∀ k ∈ btKeys S, k ∈ btKeys I := by
    intro k hk
    rcases (hSkeys k).mp hk with ⟨s, hs, rfl⟩
    rcases List.mem_map.mp (hall s hs) with ⟨i, hi, hioff⟩
    exact (hIkeys _).mpr ⟨i, hi, hioff⟩
  obtain ⟨closed, hpair⟩ := pairUp_ok_of_keys S I hsort.1 hSI
  have hkeysEq := pairUp_ok_keys S I closed hpair
  have hclosedSorted : MapSorted closed := by
    rw [mapSorted_iff_keys, hkeysEq, ← mapSorted_iff_keys]
    exact hsort.1
  obtain ⟨s0, hs0⟩ : ∃ s0, s0 ∈ dirSegs dir := by
    cases hd : dirSegs dir with
    | nil => exact absurd hd hne
    | cons a t =>
      refine ⟨a, ?_⟩
      exact List.mem_cons_self _ _
  have hs0k : Segment.startingOffset s0 ∈ btKeys closed := by
    rw [hkeysEq]
    exact (hSkeys _).mpr ⟨s0, hs0, rfl⟩
  cases hlast : (btKeys closed).getLast? with
  | none =>
    exfalso
    have hnil := btKeys_getLast?_none closed hlast
    subst hnil
    simp [btKeys] at hs0k
  | some off =>
    rcases btMax_spec closed off hclosedSorted hlast with ⟨p, hlook, hpmem, _⟩
    refine ⟨{ active := p, closed := setReadonlyAll (btRemove off closed) }, ?_, ?_⟩
    · unfold FileSet.load_log
      rw [hscan]
      dsimp only
      rw [hpair]
      dsimp only
      rw [hlast]
      dsimp only
      rw [hlook]
    · intro o ho hnotseg
      have hoS : o ∉ btKeys S := by
        intro hc
        rcases (hSkeys o).mp hc with ⟨s, hs, hsoff⟩
        exact hnotseg (List.mem_map.mpr ⟨s, hs, hsoff⟩)
      have hoffS : off ∈ btKeys S := by
        rw [← hkeysEq]
        exact mem_btKeys_of_mem off p closed hpmem
      have hoffne : off ≠ o := fun hc => hoS (hc ▸ hoffS)
      obtain ⟨ind, sg⟩ := p
      rcases (pairUp_ok_mem S I closed hsort.1 hpair off ind sg).mp hpmem with ⟨hsS, hlookI⟩
      have hsgoff : Segment.startingOffset sg = off := hentries.1 (off, sg) hsS
      have hindoff : Index.startingOffset ind = off :=
        hentries.2 (off, ind) (btLookup_mem off I ind hlookI)
      refine ⟨?_, ?_, ?_⟩
      · show Index.startingOffset ind ≠ o
        rw [hindoff]
        exact hoffne
      · show Segment.startingOffset sg ≠ o
        rw [hsgoff]
        exact hoffne
      · rw [btLookup_eq_none_iff, btKeys_setReadonlyAll]
        intro hc
        rcases List.mem_map.mp hc with ⟨a, ha, hak⟩
        rcases (btRemove_mem off closed hclosedSorted a.1 a.2).mp ha with ⟨hamem, _⟩
        have haS : a.1 ∈ btKeys S := by
          rw [← hkeysEq]
          exact mem_btKeys_of_mem a.1 a.2 closed hamem
        rw [hak] at haS
        exact hoS haS

/-- Concrete instantiation of the amended C7 theorem: one complete pair
at offset 0 plus an orphan index at offset 10. -/
theorem C7_load_log_orphans_discarded_witness :
    (cleanDir dirOrphanPlusPair ∧
      (∀ s ∈ dirSegs dirOrphanPlusPair,
        Segment.startingOffset s ∈ (dirIdxs dirOrphanPlusPair).map Index.startingOffset) ∧
      dirSegs dirOrphanPlusPair ≠ []) ∧
    (∃ fs, FileSet.load_log dirOrphanPlusPair = Except.ok fs ∧
      ∀ o, o ∈ (dirIdxs dirOrphanPlusPair).map Index.startingOffset →
        o ∉ (dirSegs dirOrphanPlusPair).map Segment.startingOffset →
        fs.active.1.startingOffset ≠ o ∧ fs.active.2.startingOffset ≠ o ∧
          btLookup o fs.closed = none) :=
  ⟨⟨by decide, by decide, by decide⟩,
    C7_load_log_orphans_discarded dirOrphanPlusPair (by decide) (by decide) (by decide)⟩

/-- C2: loading a directory of N complete pairs (N at least 1) with
distinct starting offsets — every segment matched by an index with the
same starting offset and vice versa, all indexes opened writable —
succeeds; the active pair is the pair with the greatest starting offset,
the closed collection holds exactly the other N-1 pairs keyed by their
starting offsets with each index marked read-only, and the active index
is left writable (set-readonly invoked on no other index). -/
theorem C2_load_log_recovery (dir : List DirEntry)
    (hclean : cleanDir dir)
    (hN : dirSegs dir ≠ [])
    (hndS : ((dirSegs dir).map Segment.startingOffset).Nodup)
    (hndI : ((dirIdxs dir).map Index.startingOffset).Nodup)
    (hmatch1 : ∀ s ∈ dirSegs dir,
      Segment.startingOffset s ∈ (dirIdxs dir).map Index.startingOffset)
    (hmatch2 : ∀ i ∈ dirIdxs dir,
      Index.startingOffset i ∈ (dirSegs dir).map Segment.startingOffset)
    (hro : ∀ i ∈ dirIdxs dir, i.readonly = false) :
    ∃ fs, FileSet.load_log dir = Except.ok fs ∧
      fs.active.2 ∈ dirSegs dir ∧
      fs.active.1 ∈ dirIdxs dir ∧
      fs.active.1.startingOffset = fs.active.2.startingOffset ∧
      (∀ s ∈ dirSegs dir, Segment.startingOffset s ≤ fs.active.2.startingOffset) ∧
      fs.active.1.readonly = false ∧
      fs.closed.length + 1 = (dirSegs dir).length ∧
      (∀ k ind sg, (k, (ind, sg)) ∈ fs.closed ↔
        (k ≠ fs.active.2.startingOffset ∧ sg ∈ dirSegs dir ∧
          Segment.startingOffset sg = k ∧
          ∃ ind0 ∈ dirIdxs dir, Index.startingOffset ind0 = k ∧
            ind = ind0.set_readonly)) := by
  obtain ⟨S, I, hscan⟩ := scanFiles_clean_ok dir [] [] hclean
  have hsort := scanFiles_ok_sorted dir [] [] S I
    (by simp [MapSorted]) (by simp [MapSorted]) hscan
  have hkeys := scanFiles_ok_keys dir [] [] S I hscan
  have hmemSI := scanFiles_ok_mem dir [] [] S I
    (by simp [MapSorted]) (by simp [MapSorted]) hndS hndI hscan
  have hperm := scanFiles_ok_keys_perm dir [] [] S I hndS hscan
  have hSmem : ∀ k v, (k, v) ∈ S ↔ v ∈ dirSegs dir ∧ Segment.startingOffset v = k := by
    intro k v
    rw [hmemSI.1 k v]
    constructor
    · rintro (hk | hv)
      · exact absurd hk (List.not_mem_nil _)
      · exact hv
    · exact Or.inr
  have hImem : ∀ k v, (k, v) ∈ I ↔ v ∈ dirIdxs dir ∧ Index.startingOffset v = k := by
    intro k v
    rw [hmemSI.2 k v]
    constructor
    · rintro (hk | hv)
      · exact absurd hk (List.not_mem_nil _)
      · exact hv
    · exact Or.inr
  have hSkeys : ∀ k, k ∈ btKeys S ↔ ∃ s ∈ dirSegs dir, Segment.startingOffset s = k := by
    intro k
    rw [hkeys.1 k]
    constructor
    · rintro (hk | hex)
      · simp [btKeys] at hk
      · exact hex
    · exact Or.inr
  have hIkeys : ∀ k, k ∈ btKeys I ↔ ∃ i ∈ dirIdxs dir, Index.startingOffset i = k := by
    intro k
    rw [hkeys.2 k]
    constructor
    · rintro (hk | hex)
      · simp [btKeys] at hk
      · exact hex
    · exact Or.inr
  have hSI : ∀ k ∈ btKeys S, k ∈ btKeys I := by
    intro k hk
    rcases (hSkeys k).mp hk with ⟨s, hs, rfl⟩
    rcases List.mem_map.mp (hmatch1 s hs) with ⟨i, hi, hioff⟩
    exact (hIkeys _).mpr ⟨i, hi, hioff⟩
  obtain ⟨closed, hpair⟩ := pairUp_ok_of_keys S I hsort.1 hSI
  have hkeysEq := pairUp_ok_keys S I closed hpair
  have hclosedSorted : MapSorted closed := by
    rw [mapSorted_iff_keys, hkeysEq, ← mapSorted_iff_keys]
    exact hsort.1
  obtain ⟨s0, hs0⟩ : ∃ s0, s0 ∈ dirSegs dir := by
    cases hd : dirSegs dir with
    | nil => exact absurd hd hN
    | cons a t =>
      refine ⟨a, ?_⟩
      exact List.mem_cons_self _ _
  have hs0k : Segment.startingOffset s0 ∈ btKeys closed := by
    rw [hkeysEq]
    exact (hSkeys _).mpr ⟨s0, hs0, rfl⟩
  cases hlast : (btKeys closed).getLast? with
  | none =>
    exfalso
    have hnil := btKeys_getLast?_none closed hlast
    subst hnil
    simp [btKeys] at hs0k
  | some off =>
    rcases btMax_spec closed off hclosedSorted hlast with ⟨p, hlook, hpmem, hmax⟩
    obtain ⟨ind, sg⟩ := p
    rcases (pairUp_ok_mem S I closed hsort.1 hpair off ind sg).mp hpmem with ⟨hsS, hlookI⟩
    rcases (hSmem off sg).mp hsS with ⟨hsgdir, hsgoff⟩
    have hindI : (off, ind) ∈ I := btLookup_mem off I ind hlookI
    rcases (hImem off ind).mp hindI with ⟨hinddir, hindoff⟩
    have hoffclosed : off ∈ btKeys closed := mem_btKeys_of_mem off (ind, sg) closed hpmem
    refine ⟨{ active := (ind, sg), closed := setReadonlyAll (btRemove off closed) },
      ?_, hsgdir, hinddir, ?_, ?_, hro ind hinddir, ?_, ?_⟩
    · unfold FileSet.load_log
      rw [hscan]
      dsimp only
      rw [hpair]
      dsimp only
      rw [hlast]
      dsimp only
      rw [hlook]
    · show Index.startingOffset ind = Segment.startingOffset sg
      rw [hindoff, hsgoff]
    · intro s hs
      show Segment.startingOffset s ≤ Segment.startingOffset sg
      rw [hsgoff]
      have hsk : Segment.startingOffset s ∈ btKeys closed := by
        rw [hkeysEq]
        exact (hSkeys _).mpr ⟨s, hs, rfl⟩
      rcases List.mem_map.mp hsk with ⟨a, ha, hak⟩
      rw [← hak]
      exact hmax a ha
    · show (setReadonlyAll (btRemove off closed)).length + 1 = (dirSegs dir).length
      have e1 : (setReadonlyAll (btRemove off closed)).length = (btRemove off closed).length :=
        List.length_map _ _
      have e2 := btRemove_length_of_mem off closed hoffclosed
      have e3 : closed.length = (btKeys closed).length := (List.length_map _ _).symm
      have e4 : (btKeys closed).length = (btKeys S).length := by
        rw [hkeysEq]
      have e5 : (btKeys S).length = ((dirSegs dir).map Segment.startingOffset).length :=
        hperm.length_eq
      have e6 : ((dirSegs dir).map Segment.startingOffset).length = (dirSegs dir).length :=
        List.length_map _ _
      omega
    · intro k ind' sg'
      show (k, (ind', sg')) ∈ setReadonlyAll (btRemove off closed) ↔
        (k ≠ Segment.startingOffset sg ∧ sg' ∈ dirSegs dir ∧
          Segment.startingOffset sg' = k ∧
          ∃ ind0 ∈ dirIdxs dir, Index.startingOffset ind0 = k ∧
            ind' = ind0.set_readonly)
      rw [setReadonlyAll_mem]
      constructor
      · rintro ⟨ind0, hmem0, rfl⟩
        rcases (btRemove_mem off closed hclosedSorted k (ind0, sg')).mp hmem0 with ⟨hmemc, hkne⟩
        rcases (pairUp_ok_mem S I closed hsort.1 hpair k ind0 sg').mp hmemc with ⟨hkS, hkI⟩
        rcases (hSmem k sg').mp hkS with ⟨hsgdir', hsgoff'⟩
        have hindI' : (k, ind0) ∈ I := btLookup_mem k I ind0 hkI
        rcases (hImem k ind0).mp hindI' with ⟨hinddir', hindoff'⟩
        refine ⟨?_, hsgdir', hsgoff', ind0, hinddir', hindoff', rfl⟩
        rw [hsgoff]
        exact hkne
      · rintro ⟨hkne, hsgdir', hsgoff', ind0, hinddir', hindoff', rfl⟩
        refine ⟨ind0, ?_, rfl⟩
        rw [btRemove_mem off closed hclosedSorted]
        constructor
        · rw [pairUp_ok_mem S I closed hsort.1 hpair]
          refine ⟨(hSmem k sg').mpr ⟨hsgdir', hsgoff'⟩, ?_⟩
          exact btLookup_of_mem k I ind0 hsort.2 ((hImem k ind0).mpr ⟨hinddir', hindoff'⟩)
        · intro hc
          apply hkne
          rw [hc, hsgoff]

/-- Concrete instantiation of the C2 theorem on the two-pair sample
directory (offsets 0 and 10). -/
theorem C2_load_log_recovery_witness :
    (cleanDir dirW ∧ dirSegs dirW ≠ [] ∧
      ((dirSegs dirW).map Segment.startingOffset).Nodup ∧
      ((dirIdxs dirW).map Index.startingOffset).Nodup ∧
      (∀ s ∈ dirSegs dirW,
        Segment.startingOffset s ∈ (dirIdxs dirW).map Index.startingOffset) ∧
      (∀ i ∈ dirIdxs dirW,
        Index.startingOffset i ∈ (dirSegs dirW).map Segment.startingOffset) ∧
      (∀ i ∈ dirIdxs dirW, i.readonly = false)) ∧
    (∃ fs, FileSet.load_log dirW = Except.ok fs ∧
      fs.active.2 ∈ dirSegs dirW ∧
      fs.active.1 ∈ dirIdxs dirW ∧
      fs.active.1.startingOffset = fs.active.2.startingOffset ∧
      (∀ s ∈ dirSegs dirW, Segment.startingOffset s ≤ fs.active.2.startingOffset) ∧
      fs.active.1.readonly = false ∧
      fs.closed.length + 1 = (dirSegs dirW).length ∧
      (∀ k ind sg, (k, (ind, sg)) ∈ fs.closed ↔
        (k ≠ fs.active.2.startingOffset ∧ sg ∈ dirSegs dirW ∧
          Segment.startingOffset sg = k ∧
          ∃ ind0 ∈ dirIdxs dirW, Index.startingOffset ind0 = k ∧
            ind = ind0.set_readonly))) :=
  ⟨⟨by decide, by decide, by decide, by decide, by decide, by decide, by decide⟩,
    C2_load_log_recovery dirW (by decide) (by decide) (by decide) (by decide)
      (by decide) (by decide) (by decide)⟩

end Commitlog
